import Mathlib

/-!
CHM time series: a shallow embedding of `src/timeseries/timeseries.cpp` and
`src/timeseries/timestep.cpp`.

The store `time_series` keeps one column (`variable_vec`) per variable name in a
`tbb::concurrent_hash_map` and one vector of timestamps (`_date_vec`).  A `timestep`
(the cursor) keeps one vector iterator per variable plus one iterator into `_date_vec`;
`time_series::iterator` wraps a `timestep`.

Modelling decisions.

* A hash map is an association list.  The order of the list is the (unspecified) order
  in which the C++ range-for visits the map; every statement below is proved for every
  order.  The container never holds two entries with one key; this is the predicate
  `hm_wf`, which the operations preserve but do not require.
* A vector iterator is the pair of the vector it points into and an offset; the vectors of
  one store are identified by the key under which the store holds them.  The iterator into
  `_date_vec` is its offset.  All cursors are cursors of one store.
* `double` values are stored, read back and, in `open`, read from decimal text; they are
  modelled by rationals (the exact value written; rounding to a `double` and its range are
  not modelled).  `boost::posix_time::ptime` is only compared for equality; it is an
  integer instant, counted in seconds.  Offsets and counters are mathematical integers.
* A C++ exception is `Except.error`; reading through an iterator that is outside its
  vector has no defined result and is `none`.
* `to_file` writes to a stream.  What it writes is the list of the insertions `out << x`
  it makes, in order: a text, a timestamp, a value or `std::endl`.  The characters that
  `operator<<` produces for a timestamp or a value are not modelled.
* `open` mutates the store before it throws, so its result is an `outcome`: a normal
  return, an exception together with the store as it is when the exception leaves `open`,
  undefined behaviour, or a loop that never ends.  The file is the text read from the
  path, or `none` when the stream cannot be opened.
-/

namespace CHM

/-- The exception types thrown by the time-series code, named as at the throw sites, and the
standard exceptions `std::length_error` and `std::out_of_range` thrown by library calls. -/
inductive exception where
  | forcing_error
  | forcing_timestep_notfound
  | forcing_insertion_error
  | forcing_lookup_error
  | forcing_badcast
  | forcing_no_regexmatch
  | file_read_error
  | length_error
  | out_of_range
deriving DecidableEq, Repr

/-- The type `double`. -/
abbrev double := Rat

/-- The type `boost::posix_time::ptime`. -/
abbrev ptime := Int

/-- The type `time_series::variable_vec`: one column. -/
abbrev variable_vec := List double

/-- The type `time_series::date_vec`: the time index. -/
abbrev date_vec := List ptime

/-- The type `variable_vec::iterator`: the column pointed into and the offset in it. -/
structure vec_iterator where
  vec : String
  idx : Int
deriving DecidableEq, Repr

/-- A `tbb::concurrent_hash_map<std::string, β>` in the order its iteration visits it. -/
abbrev hash_map (β : Type) := List (String × β)

/-- The type `time_series::ts_hashmap`. -/
abbrev ts_hashmap := hash_map variable_vec

/-- The type `timestep::itr_map`. -/
abbrev itr_map := hash_map vec_iterator

/-- The keys of a hash map, in iteration order. -/
def hm_keys {β : Type} (m : hash_map β) : List String := m.map Prod.fst

/-- The container invariant of a hash map: no key occurs twice. -/
def hm_wf {β : Type} (m : hash_map β) : Prop := (hm_keys m).Nodup

instance {β : Type} (m : hash_map β) : Decidable (hm_wf m) := by
  unfold hm_wf; infer_instance

/-- Member `find(accessor, key)`: the value stored under `key`, if any. -/
def hm_find {β : Type} : hash_map β → String → Option β
  | [], _ => none
  | (k, v) :: rest, key => if k = key then some v else hm_find rest key

/-- Member `insert(accessor, key)`: adds `key` with the default value when it is absent.
Returns the map and whether a new entry was made. -/
def hm_insert {β : Type} (m : hash_map β) (key : String) (dflt : β) : hash_map β × Bool :=
  match hm_find m key with
  | some _ => (m, false)
  | none => (m ++ [(key, dflt)], true)

/-- Applies `f` to the value an accessor for `key` refers to (`a->second = ...`,
`a->second++`). -/
def hm_modify {β : Type} : hash_map β → String → (β → β) → hash_map β
  | [], _, _ => []
  | (k, v) :: rest, key, f =>
    if k = key then (k, f v) :: rest else (k, v) :: hm_modify rest key f

/-- Class `timestep`: one iterator per variable and the iterator into the time index. -/
structure timestep where
  _itrs : itr_map
  _date_itr : Int
deriving DecidableEq, Repr

/-- Class `time_series::iterator`. -/
structure iterator where
  _currentStep : timestep
deriving DecidableEq, Repr

/-- Class `time_series`. -/
structure time_series where
  _variables : ts_hashmap
  _date_vec : date_vec
  _cols : Int
  _rows : Int
  _isOpen : Bool
  _file : String
  _timeseries_size : Int
deriving DecidableEq, Repr

/-- Constructor `time_series::time_series()`. -/
def time_series.new : time_series :=
  { _variables := [], _date_vec := [], _cols := 0, _rows := 0, _isOpen := false,
    _file := "", _timeseries_size := 0 }

/-- Constructor `timestep::timestep()` inside `time_series::iterator::iterator()`. -/
def iterator.new : iterator := { _currentStep := { _itrs := [], _date_itr := 0 } }

/-- Member `resize(n)` of a column: keeps the first `n` values and pads with `0.0`. -/
def vec_resize (v : variable_vec) (n : Nat) : variable_vec :=
  v.take n ++ List.replicate (n - v.length) 0

/-- The second loop of `init`: `itr.second.resize(size)` for every column.  The `int`
argument is converted to `size_t`; a negative one becomes a size above `max_size()`, on
which `resize` throws. -/
def resize_all : ts_hashmap → Int → Except exception ts_hashmap
  | [], _ => .ok []
  | (k, v) :: rest, size =>
    if size < 0 then .error exception.length_error
    else match resize_all rest size with
      | .error e => .error e
      | .ok rest' => .ok ((k, vec_resize v size.toNat) :: rest')

/-- Method `time_series::init(variables, datetime, size)`. -/
def time_series.init (s : time_series) (variables_ : List String) (datetime : date_vec)
    (size : Int) : Except exception time_series :=
  let vars := variables_.foldl (fun m v => (hm_insert m v []).1) s._variables
  match resize_all vars size with
  | .error e => .error e
  | .ok vars' => .ok { s with _variables := vars', _date_vec := datetime }

/-- Method `time_series::list_variables()`. -/
def time_series.list_variables (s : time_series) : List String :=
  s._variables.foldl (fun vars itr => vars ++ [itr.1]) []

/-- The loop shared by `begin`, `end`, `find` and `range`: for every column of the store
insert its name into the step's `_itrs` (throwing when the insert reports an existing
key) and store the iterator `off itr.second` of that column under it.  The value the
insert creates is overwritten by that assignment before anything reads it. -/
def build_itrs (off : variable_vec → Int) : ts_hashmap → itr_map → Except exception itr_map
  | [], itrs => .ok itrs
  | (name, col) :: rest, itrs =>
    match hm_insert itrs name ⟨name, 0⟩ with
    | (_, false) => .error exception.forcing_insertion_error
    | (itrs', true) =>
      build_itrs off rest (hm_modify itrs' name (fun _ => ⟨name, off col⟩))

/-- Method `time_series::begin()`. -/
def time_series.begin (s : time_series) : Except exception iterator :=
  match build_itrs (fun _ => 0) s._variables iterator.new._currentStep._itrs with
  | .error e => .error e
  | .ok itrs => .ok { _currentStep := { _itrs := itrs, _date_itr := 0 } }

/-- Method `time_series::end()`. -/
def time_series.end (s : time_series) : Except exception iterator :=
  match build_itrs (fun col => (col.length : Int)) s._variables
      iterator.new._currentStep._itrs with
  | .error e => .error e
  | .ok itrs => .ok { _currentStep := { _itrs := itrs, _date_itr := s._date_vec.length } }

/-- The call `std::find(v.begin() + start, v.end(), t)` as an offset from `v.begin()`;
`v.length` stands for `v.end()`. -/
def std_find (v : date_vec) (start : Nat) (t : ptime) : Nat :=
  start + List.indexOf t (v.drop start)

/-- Method `time_series::find(time)`. -/
def time_series.find (s : time_series) (time : ptime) : Except exception iterator :=
  let itr := std_find s._date_vec 0 time
  if itr = s._date_vec.length then .error exception.forcing_timestep_notfound
  else
    let dist : Int := itr
    match build_itrs (fun _ => dist) s._variables iterator.new._currentStep._itrs with
    | .error e => .error e
    | .ok itrs => .ok { _currentStep := { _itrs := itrs, _date_itr := dist } }

/-- Method `time_series::range(start_time, end_time)`. -/
def time_series.range (s : time_series) (start_time end_time : ptime) :
    Except exception (iterator × iterator) :=
  let itr_find := std_find s._date_vec 0 start_time
  if itr_find = s._date_vec.length then .error exception.forcing_timestep_notfound
  else
    let dist_start : Int := itr_find
    match build_itrs (fun _ => dist_start) s._variables iterator.new._currentStep._itrs with
    | .error e => .error e
    | .ok start_itrs =>
      let start_step : iterator :=
        { _currentStep := { _itrs := start_itrs, _date_itr := dist_start } }
      let itr_find := std_find s._date_vec dist_start.toNat end_time
      let dist_end : Int := itr_find
      let dist_end := dist_end + 1
      match build_itrs (fun _ => dist_end) s._variables iterator.new._currentStep._itrs with
      | .error e => .error e
      | .ok end_itrs =>
        .ok (start_step, { _currentStep := { _itrs := end_itrs, _date_itr := dist_end } })

/-- Method `time_series::iterator::dereference()`. -/
def iterator.dereference (it : iterator) : timestep := it._currentStep

/-- Method `time_series::iterator::equal(other)`. -/
def iterator.equal (self other : iterator) : Bool :=
  if self._currentStep._itrs.length ≠ other._currentStep._itrs.length then false
  else
    let isEqual := self._currentStep._itrs.foldl
      (fun acc itr => other._currentStep._itrs.foldl
        (fun acc jtr => if itr.2 = jtr.2 then true else acc) acc) false
    let isEqual :=
      if isEqual && !(self._currentStep._date_itr == other._currentStep._date_itr)
      then false else isEqual
    isEqual

/-- The loop of `increment` and `decrement`: for every entry of `_itrs`, in iteration
order, look its key up again and move the iterator found by `d`. -/
def step_all (d : Int) (itrs : itr_map) : itr_map :=
  itrs.foldl (fun m itr => hm_modify m itr.1 (fun p => { p with idx := p.idx + d })) itrs

/-- Method `time_series::iterator::increment()`. -/
def iterator.increment (it : iterator) : iterator :=
  { _currentStep :=
      { _itrs := step_all 1 it._currentStep._itrs,
        _date_itr := it._currentStep._date_itr + 1 } }

/-- Method `time_series::iterator::decrement()`. -/
def iterator.decrement (it : iterator) : iterator :=
  { _currentStep :=
      { _itrs := step_all (-1) it._currentStep._itrs,
        _date_itr := it._currentStep._date_itr - 1 } }

/-- Method `time_series::iterator::distance_to(other)`. -/
def iterator.distance_to (self other : iterator) : Int :=
  other._currentStep._date_itr - self._currentStep._date_itr

/-- Reading `p[0]` through a vector iterator of the store `s`; `none` when `p` is not
inside its vector. -/
def vec_iterator.read (s : time_series) (p : vec_iterator) : Option double :=
  match hm_find s._variables p.vec with
  | none => none
  | some col => if 0 ≤ p.idx then col[p.idx.toNat]? else none

/-- Method `timestep::get_posix()`: `*_date_itr`. -/
def timestep.get_posix (s : time_series) (c : timestep) : Option ptime :=
  if 0 ≤ c._date_itr then s._date_vec[c._date_itr.toNat]? else none

/-- Method `timestep::get(varName)` on a cursor of the store `s`. -/
def timestep.get (s : time_series) (c : timestep) (varName : String) :
    Except exception (Option double) :=
  match hm_find c._itrs varName with
  | none => .error exception.forcing_lookup_error
  | some a => .ok (a.read s)

/-- Method `face::face_data(variable)`: `_itr->get(variable)`. -/
def face_data (_data : time_series) (_itr : iterator) (variable_ : String) :
    Except exception (Option double) :=
  _itr.dereference.get _data variable_

/-- Member `erase(accessor)` after a successful `find(accessor, key)`: removes the entry
of `key`. -/
def hm_erase {β : Type} : hash_map β → String → hash_map β
  | [], _ => []
  | (k, v) :: rest, key => if k = key then rest else (k, v) :: hm_erase rest key

/-- Method `time_series::push_back(data, variable)`. -/
def time_series.push_back (s : time_series) (data : double) (variable_ : String) :
    time_series :=
  let a := hm_insert s._variables variable_ []
  { s with _variables := hm_modify a.1 variable_ (fun col => col ++ [data]) }

/-- Method `time_series::get_time_series(variable)`. -/
def time_series.get_time_series (s : time_series) (variable_ : String) :
    Except exception variable_vec :=
  match hm_find s._variables variable_ with
  | none => .error exception.forcing_error
  | some col => .ok col

/-- Method `time_series::get_timeseries_size()`. -/
def time_series.get_timeseries_size (s : time_series) : Int := s._timeseries_size

/-- Method `time_series::get_opened_file()`. -/
def time_series.get_opened_file (s : time_series) : String := s._file

/-- Method `time_series::is_open()`. -/
def time_series.is_open (s : time_series) : Bool := s._isOpen

/-- Writing `p[0] = value` through a vector iterator of the store `s`; `none` when `p` is
not inside its vector. -/
def vec_iterator.write (s : time_series) (p : vec_iterator) (value : double) :
    Option time_series :=
  match hm_find s._variables p.vec with
  | none => none
  | some col =>
    if 0 ≤ p.idx ∧ p.idx.toNat < col.length then
      some { s with
        _variables := hm_modify s._variables p.vec (fun c => c.set p.idx.toNat value) }
    else none

/-- Method `timestep::set(varName, value)` on a cursor of the store `s`: the store after
the write.  The cursor itself is not written to. -/
def timestep.set (s : time_series) (c : timestep) (varName : String) (value : double) :
    Except exception (Option time_series) :=
  match hm_find c._itrs varName with
  | none => .error exception.forcing_lookup_error
  | some a => .ok (a.write s value)

/-- Method `face::set_face_data(variable, data)`: `_itr->set(variable, data)`. -/
def set_face_data (_data : time_series) (_itr : iterator) (variable_ : String)
    (data : double) : Except exception (Option time_series) :=
  _itr.dereference.set _data variable_ data

/-- The result of a method that changes the store in place and may throw: a normal return,
an exception with the store as it is when the exception leaves the method, undefined
behaviour, or a loop that never ends. -/
inductive outcome (α : Type) where
  | returns (a : α)
  | throws (e : exception) (s : time_series)
  | undefined
  | diverges
deriving DecidableEq, Repr

/-- The calls `getline(file, line)` until the stream fails: the text cut at every newline;
a text that ends in a newline has no further, empty line. -/
def getlines_go : List Char → List Char → List String
  | [], cur => if cur.isEmpty then [] else [String.mk cur]
  | c :: rest, cur =>
    if c = Char.ofNat 10 then String.mk cur :: getlines_go rest [] else getlines_go rest (cur ++ [c])

/-- The lines of a file. -/
def getlines (contents : String) : List String := getlines_go contents.data []

/-- The characters excluded by the pattern `"[^,\\r\\n\\s]+"`: the comma and the white
space characters (space, tab, line feed, vertical tab, form feed, carriage return). -/
def is_separator (c : Char) : Bool :=
  c = (',' : Char) || c = Char.ofNat 13 || c = Char.ofNat 10 || c = Char.ofNat 32
    || c = Char.ofNat 9 || c = Char.ofNat 11 || c = Char.ofNat 12

/-- Modelled from the spec: `regex_tokenizer::tokenize` (regex_tokenizer.hpp is not among
the sources) returns the successive matches of its pattern in the text; for the pattern
`"[^,\\r\\n\\s]+"` these are the maximal runs of characters that are not separators. -/
def tokenize_go : List Char → List Char → List String
  | [], cur => if cur.isEmpty then [] else [String.mk cur]
  | c :: rest, cur =>
    if is_separator c then
      (if cur.isEmpty then tokenize_go rest [] else String.mk cur :: tokenize_go rest [])
    else tokenize_go rest (cur ++ [c])

/-- The call `token.tokenize<std::string>(line)`. -/
def tokenize (line : String) : List String := tokenize_go line.data []

/-- The value of a run of decimal digits. -/
def digits_value (ds : List Char) : Nat := ds.foldl (fun n c => 10 * n + (c.toNat - 48)) 0

/-- The parts of a text matched by the pattern `floating`. -/
structure floating_parts where
  negative : Bool
  int_digits : List Char
  frac_digits : List Char
  exp_negative : Bool
  exp_digits : List Char
deriving DecidableEq, Repr

/-- The sub-pattern `[-+]?`: whether the sign is `-`, and the rest of the text. -/
def split_sign : List Char → Bool × List Char
  | [] => (false, [])
  | c :: rest =>
    if c = ('-' : Char) then (true, rest)
    else if c = ('+' : Char) then (false, rest) else (false, c :: rest)

/-- The sub-pattern `(?:[eE][-+]?[0-9]+)?$` on the rest of the text. -/
def floating_exponent : List Char → Option (Bool × List Char)
  | [] => some (false, [])
  | c :: rest =>
    if c = ('e' : Char) || c = ('E' : Char) then
      if (split_sign rest).2 ≠ [] ∧ (split_sign rest).2.all Char.isDigit = true then
        some (split_sign rest) else none
    else none

/-- The pattern `"^[-+]?(?:[0-9]+\\.(?:[0-9]*)?|\\.[0-9]+)(?:[eE][-+]?[0-9]+)?$"` on a text
without line breaks: an optional sign, then digits, a point and optional digits, or a point
and digits, then an optional exponent, up to the end of the text. -/
def floating_match (item : List Char) : Option floating_parts :=
  let l := (split_sign item).2
  match l.dropWhile Char.isDigit with
  | [] => none
  | c :: r2 =>
    if c = ('.' : Char) then
      if l.takeWhile Char.isDigit ≠ [] ∨ r2.takeWhile Char.isDigit ≠ [] then
        match floating_exponent (r2.dropWhile Char.isDigit) with
        | some e =>
          some { negative := (split_sign item).1, int_digits := l.takeWhile Char.isDigit,
                 frac_digits := r2.takeWhile Char.isDigit, exp_negative := e.1,
                 exp_digits := e.2 }
        | none => none
      else none
    else none

/-- Modelled from the spec: `regex_tokenizer::tokenize` (regex_tokenizer.hpp is not among
the sources) returns the matches of its pattern.  This is the call
`floating.tokenize<std::string>(item)` on a token: the pattern is anchored at both ends, so
the token itself is the only possible match. -/
def floating_tokenize (item : String) : List String :=
  match floating_match item.data with
  | some _ => [item]
  | none => []

/-- Library call `boost::lexical_cast<double>(str)` on the texts of the pattern `floating`,
the only ones it is called on: the decimal number written, as an exact rational (rounding
to a `double` and its range are not modelled); `none` stands for `bad_lexical_cast`. -/
def lexical_cast_double (str : String) : Option double :=
  match floating_match str.data with
  | none => none
  | some p =>
    let mant : Nat := digits_value (p.int_digits ++ p.frac_digits)
    let e : Nat := digits_value p.exp_digits
    let num : Nat := mant * (if p.exp_negative then 1 else 10 ^ e)
    let den : Nat := 10 ^ p.frac_digits.length * (if p.exp_negative then 10 ^ e else 1)
    some (mkRat (if p.negative then -(num : Int) else (num : Int)) den)

/-- The pattern `"[0-9]{8}T[0-9]{6}"` at the start of a text: the fifteen characters
matched, if any. -/
def dateTime_at_start (l : List Char) : Option (List Char) :=
  if (l.take 15).length = 15 ∧ (l.take 8).all Char.isDigit = true
      ∧ l[8]? = some ('T' : Char) ∧ ((l.drop 9).take 6).all Char.isDigit = true
  then some (l.take 15) else none

/-- Modelled from the spec: `regex_tokenizer::tokenize` (regex_tokenizer.hpp is not among
the sources) returns the successive matches of its pattern; for `"[0-9]{8}T[0-9]{6}"` they
are taken leftmost first and do not overlap.  `skip` counts the characters still covered by
the last match. -/
def dateTime_go : List Char → Nat → List String
  | [], _ => []
  | _ :: rest, skip + 1 => dateTime_go rest skip
  | c :: rest, 0 =>
    match dateTime_at_start (c :: rest) with
    | some m => String.mk m :: dateTime_go rest 14
    | none => dateTime_go rest 0

/-- The call `dateTime.tokenize<std::string>(item)`: the pattern is not anchored, so the
matches are looked for anywhere in the token. -/
def dateTime_tokenize (item : String) : List String := dateTime_go item.data 0

/-- The number of days of a month of the Gregorian calendar. -/
def days_in_month (year month : Nat) : Nat :=
  if month = 2 then
    (if year % 4 = 0 ∧ (year % 100 ≠ 0 ∨ year % 400 = 0) then 29 else 28)
  else if month = 4 ∨ month = 6 ∨ month = 9 ∨ month = 11 then 30 else 31

/-- The number of days from 1970-01-01 to a date of the Gregorian calendar. -/
def days_from_civil (year month day : Nat) : Int :=
  let y : Nat := if month ≤ 2 then year - 1 else year
  let era : Nat := y / 400
  let yoe : Nat := y - era * 400
  let mp : Nat := if month ≤ 2 then month + 9 else month - 3
  let doy : Nat := (153 * mp + 2) / 5 + day - 1
  let doe : Nat := yoe * 365 + yoe / 4 - yoe / 100 + doy
  ((era * 146097 + doe : Nat) : Int) - 719468

/-- Library call `boost::posix_time::from_iso_string(str)` on the texts of the pattern
`"[0-9]{8}T[0-9]{6}"`, the only ones it is called on: the date `YYYYMMDD` must be a date
of the Gregorian calendar with a year from 1400 to 9999, else an exception derived from
`std::out_of_range` is thrown; the time of day `hhmmss` is added as a duration; the
instant is counted in seconds from 1970-01-01T00:00:00. -/
def from_iso_string (str : String) : Except exception ptime :=
  let l := str.data
  let year := digits_value (l.take 4)
  let month := digits_value ((l.drop 4).take 2)
  let day := digits_value ((l.drop 6).take 2)
  let hour := digits_value ((l.drop 9).take 2)
  let min := digits_value ((l.drop 11).take 2)
  let sec := digits_value ((l.drop 13).take 2)
  if year < 1400 ∨ 9999 < year then .error exception.out_of_range
  else if month < 1 ∨ 12 < month then .error exception.out_of_range
  else if day < 1 ∨ days_in_month year month < day then .error exception.out_of_range
  else .ok (days_from_civil year month day * 86400
    + ((hour * 3600 + min * 60 + sec : Nat) : Int))

/-- The header search loop of `open`: reads lines until one has a token.  When the lines
run out, `getline` fails, leaves `line` empty, and the loop goes on for ever: `none`.
Otherwise the header and the lines not yet read. -/
def open_header : List String → Option (List String × List String)
  | [] => none
  | line :: rest =>
    if (tokenize line).length ≠ 0 then some (tokenize line, rest) else open_header rest

/-- The loop of `open` that inserts every header name into `_variables` and throws when a
name is already there. -/
def open_insert_header : List String → time_series → outcome time_series
  | [], s => .returns s
  | h :: rest, s =>
    match hm_insert s._variables h [] with
    | (_, false) => .throws exception.forcing_insertion_error s
    | (m, true) => open_insert_header rest { s with _variables := m }

/-- The loop of `open` over the tokens of one line.  `headerItr` is the part of the header
from the header iterator on (`[]` when the iterator is at `header.end()`, where reading
`*headerItr` is undefined); the result is `cols_so_far` and the store. -/
def open_row_tokens : List String → List String → Int → time_series →
    outcome (Int × time_series)
  | [], _, cols_so_far, s => .returns (cols_so_far, s)
  | itr :: values, headerItr, cols_so_far, s =>
    match floating_tokenize itr with
    | [d] =>
      match headerItr with
      | [] => .undefined
      | h :: headerItr2 =>
        match hm_find s._variables h with
        | none => .throws exception.forcing_lookup_error s
        | some _ =>
          match lexical_cast_double d with
          | none => .throws exception.forcing_badcast s
          | some x =>
            open_row_tokens values headerItr2 (cols_so_far + 1)
              { s with _variables := hm_modify s._variables h (fun col => col ++ [x]) }
    | _ =>
      match dateTime_tokenize itr with
      | [d] =>
        match headerItr with
        | [] => .undefined
        | h :: headerItr2 =>
          match from_iso_string d with
          | .error e => .throws e s
          | .ok t =>
            open_row_tokens values headerItr2 (cols_so_far + 1)
              { s with _date_vec := s._date_vec ++ [t],
                       _variables := hm_erase s._variables h }
      | _ => .throws exception.forcing_no_regexmatch s

/-- The loop `while (getline(file, line))` of `open`; the result is `lines` and the
store. -/
def open_rows : List String → Int → List String → time_series → outcome (Int × time_series)
  | [], lines, _, s => .returns (lines, s)
  | line :: rest, lines, header, s =>
    if (tokenize line).length ≠ 0 then
      match open_row_tokens (tokenize line) header 0 s with
      | .returns (cols_so_far, s2) =>
        if cols_so_far ≠ s2._cols then .throws exception.forcing_badcast s2
        else open_rows rest (lines + 1) header { s2 with _rows := s2._rows + 1 }
      | .throws e s2 => .throws e s2
      | .undefined => .undefined
      | .diverges => .diverges
    else open_rows rest (lines + 1) header s

/-- The last loop of `open`: every column must have the length of `_date_vec`. -/
def open_validate : List String → time_series → outcome time_series
  | [], s => .returns s
  | h :: headerItems, s =>
    match hm_find s._variables h with
    | none => .throws exception.forcing_lookup_error s
    | some col =>
      if s._date_vec.length ≠ col.length then .throws exception.forcing_lookup_error s
      else open_validate headerItems s

/-- Method `time_series::open(path)`; `file` is the text of the file at `path`, or `none`
when the stream cannot be opened. -/
def time_series.open (s : time_series) (path : String) (file : Option String) :
    outcome time_series :=
  match file with
  | none => .throws exception.file_read_error s
  | some contents =>
    match open_header (getlines contents) with
    | none => .diverges
    | some (header, rest) =>
      match open_insert_header header { s with _cols := header.length } with
      | .returns s1 =>
        match open_rows rest 0 header s1 with
        | .returns (lines, s2) =>
          open_validate (hm_keys s2._variables)
            { s2 with _isOpen := true, _file := path, _timeseries_size := lines }
        | .throws e s2 => .throws e s2
        | .undefined => .undefined
        | .diverges => .diverges
      | .throws e s1 => .throws e s1
      | .undefined => .undefined
      | .diverges => .diverges

/-- A token is a number for `open`: the pattern `floating` matches it. -/
def is_number_token (tok : String) : Bool := (floating_match tok.data).isSome

/-- A token is a compact ISO datetime `YYYYMMDDThhmmss`: eight digits, `T`, six digits and
nothing else, and the eight digits are a date of the calendar. -/
def is_datetime_token (tok : String) : Bool :=
  decide (dateTime_at_start tok.data = some tok.data)
    && (match from_iso_string tok with | .ok _ => true | .error _ => false)

/-- The tokens of a line are well formed against the header names they stand under, from
the first name on: a datetime under the name `hd` and a number under any other name, and
no more tokens than names. -/
def tokens_ok (hd : String) : List String → List String → Bool
  | _, [] => true
  | [], _ :: _ => false
  | h :: hdr, tok :: toks =>
    (if h = hd then is_datetime_token tok else is_number_token tok) && tokens_ok hd hdr toks

/-- A well-formed data row: one well-formed token per header name. -/
def row_ok (hd : String) (header toks : List String) : Bool :=
  tokens_ok hd header toks && decide (toks.length = header.length)

/-- The values of the tokens of a line that stand under the header name `v`. -/
def row_vals : List String → List String → String → List double
  | h :: hdr, tok :: toks, v =>
    (if h = v then (lexical_cast_double tok).toList else []) ++ row_vals hdr toks v
  | _, _, _ => []

/-- The instants of the tokens of a line that stand under the header name `hd`. -/
def row_dates (hd : String) : List String → List String → List ptime
  | h :: hdr, tok :: toks =>
    (if h = hd then (match from_iso_string tok with | .ok t => [t] | .error _ => [])
      else []) ++ row_dates hd hdr toks
  | _, _ => []

/-- The data rows of a list of lines: the token lists of the lines that have a token. -/
def data_rows (lines : List String) : List (List String) :=
  (lines.map tokenize).filter (fun toks => decide (toks.length ≠ 0))

/-- The store while `open` reads the rows: `done` are the rows read so far under the
header `header` whose datetime column is `hd`.  The registered names are the header names
(without `hd` once a row was read), each column holds the values read under its name, and
the time index holds the instants read. -/
def loaded (header : List String) (hd : String) (done : List (List String))
    (s : time_series) : Prop :=
  s._cols = header.length ∧ hm_wf s._variables
    ∧ (hm_keys s._variables = header.erase hd ∨ (done = [] ∧ hm_keys s._variables = header))
    ∧ (∀ v, v ∈ header → v ≠ hd →
        hm_find s._variables v = some (done.map (fun row => row_vals header row v)).flatten)
    ∧ s._date_vec = (done.map (fun row => row_dates hd header row)).flatten

/-- An optional sign, as a text. -/
def is_sign_text (l : List Char) : Prop := l = [] ∨ l = [('-' : Char)] ∨ l = [('+' : Char)]

/-- A run of decimal digits, possibly empty. -/
def is_digits (l : List Char) : Prop := ∀ c, c ∈ l → Char.isDigit c = true

instance (l : List Char) : Decidable (is_digits l) := by
  unfold is_digits; infer_instance

/-- An optional exponent, as a text: nothing, or `e` or `E`, an optional sign and one or
more digits. -/
def is_exponent_text (l : List Char) : Prop :=
  l = [] ∨ ∃ e esign expd, l = e :: (esign ++ expd) ∧ (e = ('e' : Char) ∨ e = ('E' : Char))
    ∧ is_sign_text esign ∧ expd ≠ [] ∧ is_digits expd

/-- The numbers with a decimal point, spelled out: an optional sign, digits, a point,
digits, with a digit on at least one side of the point, and an optional exponent. -/
def is_point_number (tok : String) : Prop :=
  ∃ sign intd fracd expo, tok.data = sign ++ (intd ++ ('.' : Char) :: (fracd ++ expo))
    ∧ is_sign_text sign ∧ is_digits intd ∧ is_digits fracd ∧ (intd ≠ [] ∨ fracd ≠ [])
    ∧ is_exponent_text expo

/-- One insertion into the output stream of `to_file`: `out << "text"`, `out << ptime`,
`out << double` or `out << std::endl`. -/
inductive out_item where
  | text (s : String)
  | date (t : ptime)
  | value (x : double)
  | endl
deriving DecidableEq, Repr

/-- The result of `to_file`: a normal return or an exception, each with what was written
to the stream until then, or undefined behaviour. -/
inductive write_outcome where
  | returns (out : List out_item)
  | throws (e : exception) (out : List out_item)
  | undefined
deriving DecidableEq, Repr

/-- The first loop of `to_file`, after `out << "Date\t"`: `out << "\t" << itr->first` for
every variable. -/
def to_file_header (vars : ts_hashmap) : List out_item :=
  vars.foldl (fun out itr => out ++ [out_item.text "\t", out_item.text itr.1])
    [out_item.text "Date\t"]

/-- The loop over `j` of `to_file` in row `k`, from `j` on and for `n` more rounds:
`out << "\t" << *(tItr[j])`.  The array `tItr` holds one iterator per variable, each moved
`k` times by then; `none` when `tItr[j]` is outside the array or the iterator is outside
its column. -/
def to_file_values (tItr : List variable_vec) (k : Nat) : Nat → Nat → Option (List out_item)
  | 0, _ => some []
  | n + 1, j =>
    match tItr[j]? with
    | none => none
    | some col =>
      match col[k]? with
      | none => none
      | some x =>
        match to_file_values tItr k n (j + 1) with
        | none => none
        | some rest => some (out_item.text "\t" :: out_item.value x :: rest)

/-- The loop over `k` of `to_file`, from `k` on and for `n` more rounds.  `i` is the counter
left by the first loop; `_date_vec.at(i)` throws `std::out_of_range` when `i` is not an
index of `_date_vec`. -/
def to_file_rows (s : time_series) (i : Nat) (tItr : List variable_vec) :
    Nat → Nat → List out_item → write_outcome
  | 0, _, out => .returns out
  | n + 1, k, out =>
    match s._date_vec[i]? with
    | none => .throws exception.out_of_range out
    | some t =>
      match to_file_values tItr k s._cols.toNat 0 with
      | none => .undefined
      | some vals =>
        to_file_rows s i tItr n (k + 1)
          (out ++ [out_item.date t, out_item.text "\t"] ++ vals ++ [out_item.endl])

/-- Method `time_series::to_file(file)`; `file_opens` tells whether the output stream can be
opened. -/
def time_series.to_file (s : time_series) (file_opens : Bool) : write_outcome :=
  if file_opens = false then .throws exception.file_read_error []
  else
    to_file_rows s s._variables.length (s._variables.map Prod.snd) s._rows.toNat 0
      (to_file_header s._variables ++ [out_item.endl])

/-- Method `face::to_file(fname)`: `_data->to_file(fname)`. -/
def face_to_file (_data : time_series) (file_opens : Bool) : write_outcome :=
  _data.to_file file_opens

/-- Method `face::next()`: `++_itr`. -/
def face_next (_itr : iterator) : iterator := _itr.increment

/-- Method `face::reset_to_begining()`: `_itr = _data->begin()`. -/
def face_reset_to_begining (_data : time_series) : Except exception iterator := _data.begin

/-- The data lines of what `to_file` wrote: the insertions cut at every `std::endl`,
without the header line. -/
def out_lines_go : List out_item → List out_item → List (List out_item)
  | [], cur => if cur.isEmpty then [] else [cur]
  | out_item.endl :: rest, cur => cur :: out_lines_go rest []
  | it :: rest, cur => out_lines_go rest (cur ++ [it])

/-- The lines of what `to_file` wrote, the header line first. -/
def out_lines (out : List out_item) : List (List out_item) := out_lines_go out []

/-- The characters of a line of texts. -/
def line_text : List out_item → String
  | [] => ""
  | out_item.text t :: rest => t ++ line_text rest
  | _ :: rest => line_text rest

/-- A loop of `open` started on the store `s` ends, by a return, an exception or undefined
behaviour, and the store it leaves has the open mark and the path of `s`. -/
def keeps_flags {α : Type} (proj : α → time_series) (s : time_series) : outcome α → Prop
  | .returns a => (proj a)._isOpen = s._isOpen ∧ (proj a)._file = s._file
  | .throws _ s2 => s2._isOpen = s._isOpen ∧ s2._file = s._file
  | .undefined => True
  | .diverges => False

/-- The characters `to_file` writes for the names: a tab and the name, for every name. -/
def names_text : List String → String
  | [] => ""
  | n :: rest => "\t" ++ (n ++ names_text rest)

/-- The characters of what `to_file` wrote, when it wrote texts and line ends only (the
characters of a timestamp or a value are not modelled): `none` otherwise. -/
def out_text : List out_item → Option String
  | [] => some ""
  | out_item.text t :: rest => (out_text rest).map (fun r => t ++ r)
  | out_item.endl :: rest => (out_text rest).map (fun r => "\n" ++ r)
  | _ :: _ => none

/-- Every column of the store has the length of the time index. -/
def time_series.rect (s : time_series) : Prop :=
  ∀ e ∈ s._variables, e.2.length = s._date_vec.length

/-- The cursor `c` of the store `s` is at row `k`: it holds, for every column of `s` and
in the same order, the iterator at offset `k` of that column, and its iterator into the
time index is at offset `k`. -/
def timestep.at_row (s : time_series) (c : timestep) (k : Int) : Prop :=
  c._itrs = s._variables.map (fun e => (e.1, (⟨e.1, k⟩ : vec_iterator))) ∧ c._date_itr = k

instance (s : time_series) : Decidable s.rect := by
  unfold time_series.rect; infer_instance

instance (s : time_series) (c : timestep) (k : Int) : Decidable (c.at_row s k) := by
  unfold timestep.at_row; infer_instance

/-- Equality of results is decidable, so that results can be compared by evaluation. -/
instance {ε α : Type} [DecidableEq ε] [DecidableEq α] : DecidableEq (Except ε α) :=
  fun a b =>
    match a, b with
    | .ok x, .ok y =>
      if h : x = y then isTrue (by rw [h]) else isFalse (fun h2 => h (Except.ok.inj h2))
    | .error x, .error y =>
      if h : x = y then isTrue (by rw [h]) else isFalse (fun h2 => h (Except.error.inj h2))
    | .ok _, .error _ => isFalse (fun h => by cases h)
    | .error _, .ok _ => isFalse (fun h => by cases h)

/-- The iterator of the store `s` with every pointer at row `k`. -/
def row_cursor (s : time_series) (k : Int) : iterator :=
  { _currentStep :=
      { _itrs := s._variables.map (fun e => (e.1, (⟨e.1, k⟩ : vec_iterator))),
        _date_itr := k } }

/-- Applies a sequence of moves to an iterator: `true` is `increment`, `false` is
`decrement`. -/
def iterator.walk (it : iterator) (moves : List Bool) : iterator :=
  moves.foldl (fun c m => if m then c.increment else c.decrement) it

/-- A store with a repeated timestamp: two rows, both at instant `5`. -/
def dup_store : time_series :=
  { time_series.new with _variables := [("t", [1, 2]), ("rh", [50, 55])], _date_vec := [5, 5] }

/-- A store with one column and the rows `1`, `2`. -/
def two_row_store : time_series :=
  { time_series.new with _variables := [("t", [10, 20])], _date_vec := [1, 2] }

/-- A store with three rows and no variable, as `init` with no names or `open` on a file
whose only column is the datetime column leaves it. -/
def no_var_store : time_series :=
  { time_series.new with _variables := [], _date_vec := [1, 2, 3] }

/-- A store whose columns differ in length, as `init` of `t` and `rh` with two timestamps
and size `2` followed by one `push_back` on `rh` leaves it. -/
def ragged_store : time_series :=
  { time_series.new with _variables := [("t", [0, 0]), ("rh", [0, 0, 9])], _date_vec := [1, 2] }

/-- The store left by `init` of the name `t` with the timestamps `1`, `2` and size `2`. -/
def init_store : time_series :=
  { time_series.new with _variables := [("t", [0, 0])], _date_vec := [1, 2] }

/-- The file of the example: header `t,rh,datetime` and two rows. -/
def example_file : String :=
  "t,rh,datetime\n1.0,50.0,20190101T000000\n2.0,55.0,20190101T010000\n"

/-- The store `open` builds from `example_file` read from the path `met.txt`. -/
def example_store : time_series :=
  { _variables := [("t", [1, 2]), ("rh", [50, 55])], _date_vec := [1546300800, 1546304400],
    _cols := 3, _rows := 2, _isOpen := true, _file := "met.txt", _timeseries_size := 2 }

/-- A file with one row and a blank line after it. -/
def blank_line_file : String := "t,datetime\n1.0,20190101T000000\n\n"

/-- The store `open` builds from `blank_line_file` read from the path `met.txt`. -/
def blank_line_store : time_series :=
  { _variables := [("t", [1])], _date_vec := [1546300800], _cols := 2, _rows := 1,
    _isOpen := true, _file := "met.txt", _timeseries_size := 2 }

/-- A file whose row has fewer tokens than the header. -/
def short_row_file : String := "t,rh,datetime\n1.0,2.0\n"

/-- A file whose row has more tokens than the header. -/
def long_row_file : String := "t,datetime\n1.0,20190101T000000,3.0\n"

/-- A file whose row has fewer tokens than the header and starts with a token that is
neither a number nor a datetime. -/
def short_bad_row_file : String := "t,rh,datetime\nxyz,2.0\n"

/-- A file whose first row is short and whose second row has a token that is neither a
number nor a datetime. -/
def short_then_bad_file : String := "a,b\n1.0\nxyz,1.0\n"

/-- A file whose row has the integer token `5`. -/
def integer_file : String := "t,datetime\n5,20190101T000000\n"

/-- A file whose row has the token `1e3`. -/
def exponent_file : String := "t,datetime\n1e3,20190101T000000\n"

/-- A file with a header, three rows and one variable. -/
def three_row_file : String :=
  "t,datetime\n1.0,20190101T000000\n2.0,20190101T010000\n3.0,20190101T020000\n"

/-- The store `open` builds from `three_row_file` read from the path `met.txt`. -/
def three_row_store : time_series :=
  { _variables := [("t", [1, 2, 3])], _date_vec := [1546300800, 1546304400, 1546308000],
    _cols := 2, _rows := 3, _isOpen := true, _file := "met.txt", _timeseries_size := 3 }

/-- The store `three_row_store` after `push_back` of `50`, `55` and `60` on the new name
`rh`. -/
def three_row_rh_store : time_series :=
  { three_row_store with _variables := [("t", [1, 2, 3]), ("rh", [50, 55, 60])] }

/-- A file without a datetime column. -/
def no_date_file : String := "t\n1.0\n"

/-- The store as `open` leaves it when it throws on `no_date_file` read from the path
`met.txt`. -/
def no_date_store : time_series :=
  { _variables := [("t", [1])], _date_vec := [], _cols := 1, _rows := 1, _isOpen := true,
    _file := "met.txt", _timeseries_size := 1 }

/-- What `to_file` writes for `three_row_rh_store`. -/
def three_row_rh_output : List out_item :=
  [out_item.text "Date\t", out_item.text "\t", out_item.text "t", out_item.text "\t",
    out_item.text "rh", out_item.endl,
    out_item.date 1546308000, out_item.text "\t", out_item.text "\t", out_item.value 1,
    out_item.text "\t", out_item.value 50, out_item.endl,
    out_item.date 1546308000, out_item.text "\t", out_item.text "\t", out_item.value 2,
    out_item.text "\t", out_item.value 55, out_item.endl,
    out_item.date 1546308000, out_item.text "\t", out_item.text "\t", out_item.value 3,
    out_item.text "\t", out_item.value 60, out_item.endl]

/-- A file with a header and no row. -/
def header_only_file : String := "t,rh\n"

/-- The store `open` builds from `header_only_file` read from the path `met.txt`. -/
def header_only_store : time_series :=
  { _variables := [("t", []), ("rh", [])], _date_vec := [], _cols := 2, _rows := 0,
    _isOpen := true, _file := "met.txt", _timeseries_size := 0 }

/-- The store `open` builds from the file that `to_file` writes for `header_only_store`,
read from the path `out.txt`. -/
def header_only_reread : time_series :=
  { _variables := [("Date", []), ("t", []), ("rh", [])], _date_vec := [], _cols := 3,
    _rows := 0, _isOpen := true, _file := "out.txt", _timeseries_size := 0 }

/-- What the loops of `open` keep true of the store, for the header `header`: the keys of
`_variables` are distinct names of the header, and once a timestamp was read, some name of
the header is not a key. -/
def open_inv (header : List String) (s : time_series) : Prop :=
  hm_wf s._variables ∧ (∀ v, v ∈ hm_keys s._variables → v ∈ header)
    ∧ (s._date_vec ≠ [] → ∃ h, h ∈ header ∧ h ∉ hm_keys s._variables)

/-! ## Hash map lemmas -/

theorem hm_find_eq_none_iff {β : Type} (m : hash_map β) (key : String) :
    hm_find m key = none ↔ key ∉ hm_keys m := by
  induction m with
  | nil => simp [hm_find, hm_keys]
  | cons e rest ih =>
    obtain ⟨k, v⟩ := e
    by_cases h : k = key
    · simp [hm_find, hm_keys, h]
    · have h2 : ¬ key = k := fun h3 => h h3.symm
      simpa [hm_find, hm_keys, h, h2] using ih

theorem hm_find_map_snd {β γ : Type} (m : hash_map β) (g : String × β → γ) (key : String) :
    hm_find (m.map (fun e => (e.1, g e))) key
      = (m.find? (fun e => decide (e.1 = key))).map g := by
  induction m with
  | nil => simp [hm_find]
  | cons e rest ih =>
    obtain ⟨k, v⟩ := e
    by_cases h : k = key
    · simp [hm_find, h]
    · simp [hm_find, h, List.find?_cons, ih]

theorem hm_find_eq_find {β : Type} (m : hash_map β) (key : String) :
    hm_find m key = (m.find? (fun e => decide (e.1 = key))).map Prod.snd := by
  induction m with
  | nil => simp [hm_find]
  | cons e rest ih =>
    obtain ⟨k, v⟩ := e
    by_cases h : k = key
    · simp [hm_find, h]
    · simp [hm_find, h, List.find?_cons, ih]

theorem hm_keys_map_snd {β γ : Type} (m : hash_map β) (g : String × β → γ) :
    hm_keys (m.map (fun e => (e.1, g e))) = hm_keys m := by
  simp [hm_keys, List.map_map, Function.comp_def]

theorem hm_modify_append_of_not_mem {β : Type} (a b : hash_map β) (key : String) (f : β → β)
    (h : key ∉ hm_keys a) : hm_modify (a ++ b) key f = a ++ hm_modify b key f := by
  induction a with
  | nil => rfl
  | cons e rest ih =>
    obtain ⟨k, v⟩ := e
    have hk : ¬ k = key := by
      intro hk; apply h; simp [hm_keys, hk]
    have hr : key ∉ hm_keys rest := by
      intro hr; apply h; simp only [hm_keys, List.map_cons, List.mem_cons]; right; exact hr
    simp [hm_modify, hk, ih hr]

theorem build_itrs_ok (off : variable_vec → Int) (vars : ts_hashmap) (acc : itr_map)
    (hwf : hm_wf vars) (hdisj : ∀ k ∈ hm_keys vars, k ∉ hm_keys acc) :
    build_itrs off vars acc
      = .ok (acc ++ vars.map (fun e => (e.1, (⟨e.1, off e.2⟩ : vec_iterator)))) := by
  induction vars generalizing acc with
  | nil => simp [build_itrs]
  | cons e rest ih =>
    obtain ⟨name, col⟩ := e
    have hname : name ∉ hm_keys acc := hdisj name (by simp [hm_keys])
    have hnone : hm_find acc name = none := (hm_find_eq_none_iff acc name).2 hname
    have hwf' : hm_wf rest := by
      unfold hm_wf hm_keys at hwf ⊢
      exact (List.nodup_cons.1 hwf).2
    have hnot : name ∉ hm_keys rest := by
      unfold hm_wf hm_keys at hwf
      exact (List.nodup_cons.1 hwf).1
    have hmod : hm_modify (acc ++ [(name, (⟨name, 0⟩ : vec_iterator))]) name
        (fun _ => ⟨name, off col⟩) = acc ++ [(name, ⟨name, off col⟩)] := by
      rw [hm_modify_append_of_not_mem _ _ _ _ hname]; simp [hm_modify]
    have hdisj' : ∀ k ∈ hm_keys rest, k ∉ hm_keys (acc ++ [(name, ⟨name, off col⟩)]) := by
      intro k hk hmem
      simp only [hm_keys, List.map_append, List.mem_append, List.map_cons, List.map_nil,
        List.mem_singleton] at hmem
      rcases hmem with hmem | hmem
      · exact hdisj k (by simp only [hm_keys, List.map_cons, List.mem_cons]; right; exact hk) hmem
      · exact hnot (hmem ▸ hk)
    simp only [build_itrs, hm_insert, hnone, hmod]
    rw [ih _ hwf' hdisj']
    simp

theorem build_itrs_new (off : variable_vec → Int) (vars : ts_hashmap) (hwf : hm_wf vars) :
    build_itrs off vars iterator.new._currentStep._itrs
      = .ok (vars.map (fun e => (e.1, (⟨e.1, off e.2⟩ : vec_iterator)))) := by
  have h := build_itrs_ok off vars [] hwf (by simp [hm_keys])
  simpa [iterator.new] using h

/-! ## Moving a cursor -/

theorem step_all_aux (d : Int) (l pre : itr_map) (hwf : hm_wf (pre ++ l)) :
    l.foldl (fun m itr => hm_modify m itr.1 (fun p => { p with idx := p.idx + d }))
        (pre.map (fun e => (e.1, ({ e.2 with idx := e.2.idx + d } : vec_iterator))) ++ l)
      = (pre ++ l).map (fun e => (e.1, ({ e.2 with idx := e.2.idx + d } : vec_iterator))) := by
  induction l generalizing pre with
  | nil => simp
  | cons e rest ih =>
    obtain ⟨k, p⟩ := e
    have hk : k ∉ hm_keys
        (pre.map (fun e => (e.1, ({ e.2 with idx := e.2.idx + d } : vec_iterator)))) := by
      rw [hm_keys_map_snd]
      unfold hm_wf hm_keys at hwf
      unfold hm_keys
      rw [List.map_append, List.nodup_append] at hwf
      intro hmem
      exact hwf.2.2 hmem (by simp)
    have hwf' : hm_wf ((pre ++ [(k, p)]) ++ rest) := by simpa using hwf
    have h := ih (pre ++ [(k, p)]) hwf'
    simp only [List.foldl_cons]
    rw [hm_modify_append_of_not_mem _ _ _ _ hk]
    simp only [hm_modify, if_true]
    simpa using h

theorem step_all_eq (d : Int) (itrs : itr_map) (hwf : hm_wf itrs) :
    step_all d itrs
      = itrs.map (fun e => (e.1, ({ e.2 with idx := e.2.idx + d } : vec_iterator))) := by
  have h := step_all_aux d itrs [] (by simpa using hwf)
  simpa [step_all] using h

theorem at_row_wf (s : time_series) (c : timestep) (k : Int) (hwf : hm_wf s._variables)
    (h : c.at_row s k) : hm_wf c._itrs := by
  unfold hm_wf
  rw [h.1, hm_keys_map_snd]
  exact hwf

theorem at_row_increment (s : time_series) (it : iterator) (k : Int)
    (hwf : hm_wf s._variables) (h : it._currentStep.at_row s k) :
    it.increment._currentStep.at_row s (k + 1) := by
  have hc := at_row_wf s _ k hwf h
  refine ⟨?_, ?_⟩
  · simp only [iterator.increment]
    rw [step_all_eq 1 _ hc, h.1]
    simp [List.map_map, Function.comp_def]
  · simp [iterator.increment, h.2]

theorem at_row_decrement (s : time_series) (it : iterator) (k : Int)
    (hwf : hm_wf s._variables) (h : it._currentStep.at_row s k) :
    it.decrement._currentStep.at_row s (k - 1) := by
  have hc := at_row_wf s _ k hwf h
  refine ⟨?_, ?_⟩
  · simp only [iterator.decrement]
    rw [step_all_eq (-1) _ hc, h.1]
    simp [List.map_map, Function.comp_def, Int.sub_eq_add_neg]
  · simp [iterator.decrement, h.2]

theorem at_row_walk (s : time_series) (moves : List Bool) (it : iterator) (k : Int)
    (hwf : hm_wf s._variables) (h : it._currentStep.at_row s k) :
    ∃ k2 : Int, (it.walk moves)._currentStep.at_row s k2 := by
  induction moves generalizing it k with
  | nil => exact ⟨k, h⟩
  | cons m rest ih =>
    cases m with
    | true => exact ih it.increment (k + 1) (at_row_increment s it k hwf h)
    | false => exact ih it.decrement (k - 1) (at_row_decrement s it k hwf h)

/-! ## The cursors built by the store -/

theorem row_cursor_at_row (s : time_series) (k : Int) :
    (row_cursor s k)._currentStep.at_row s k := ⟨rfl, rfl⟩

theorem begin_eq (s : time_series) (hwf : hm_wf s._variables) :
    s.begin = .ok (row_cursor s 0) := by
  simp only [time_series.begin, build_itrs_new _ _ hwf]; rfl

theorem end_eq_ragged (s : time_series) (hwf : hm_wf s._variables) :
    time_series.end s = .ok
      { _currentStep :=
          { _itrs := s._variables.map
              (fun e => (e.1, (⟨e.1, (e.2.length : Int)⟩ : vec_iterator))),
            _date_itr := s._date_vec.length } } := by
  simp only [time_series.end, build_itrs_new _ _ hwf]

theorem end_eq (s : time_series) (hwf : hm_wf s._variables) (hrect : s.rect) :
    time_series.end s = .ok (row_cursor s s._date_vec.length) := by
  simp only [time_series.end, build_itrs_new _ _ hwf, row_cursor]
  congr 3
  apply List.map_congr_left
  intro e he
  simp [hrect e he]

theorem std_find_zero (v : date_vec) (t : ptime) : std_find v 0 t = List.indexOf t v := by
  simp [std_find]

theorem find_eq (s : time_series) (t : ptime) (hwf : hm_wf s._variables)
    (ht : t ∈ s._date_vec) :
    s.find t = .ok (row_cursor s (List.indexOf t s._date_vec)) := by
  have hlt : List.indexOf t s._date_vec < s._date_vec.length := List.indexOf_lt_length.2 ht
  simp only [time_series.find, std_find_zero, build_itrs_new _ _ hwf, Nat.ne_of_lt hlt,
    if_false]; rfl

theorem find_error (s : time_series) (t : ptime) (ht : t ∉ s._date_vec) :
    s.find t = .error exception.forcing_timestep_notfound := by
  have h : List.indexOf t s._date_vec = s._date_vec.length := List.indexOf_eq_length.2 ht
  simp [time_series.find, std_find_zero, h]

theorem range_eq (s : time_series) (t0 t1 : ptime) (hwf : hm_wf s._variables)
    (ht : t0 ∈ s._date_vec) :
    s.range t0 t1 = .ok (row_cursor s (List.indexOf t0 s._date_vec),
      row_cursor s ((std_find s._date_vec (List.indexOf t0 s._date_vec) t1 : Nat) + 1)) := by
  have hlt : List.indexOf t0 s._date_vec < s._date_vec.length := List.indexOf_lt_length.2 ht
  simp only [time_series.range, std_find_zero, build_itrs_new _ _ hwf, Nat.ne_of_lt hlt,
    if_false, Int.toNat_ofNat]; rfl

/-! ## Searching the time index and reading a row -/

theorem indexOf_first (l : date_vec) (k : Nat) (t : ptime) (ht : l[k]? = some t)
    (hfirst : ∀ j, j < k → l[j]? ≠ some t) : List.indexOf t l = k := by
  induction l generalizing k with
  | nil => simp at ht
  | cons a rest ih =>
    cases k with
    | zero =>
      have : a = t := by simpa using ht
      rw [this, List.indexOf_cons_self]
    | succ k =>
      have ha : a ≠ t := by
        have h0 := hfirst 0 (Nat.succ_pos k)
        simpa using h0
      rw [List.indexOf_cons_ne _ ha]
      have hrest : rest[k]? = some t := by simpa using ht
      have hfirst2 : ∀ j, j < k → rest[j]? ≠ some t := by
        intro j hj
        have h1 := hfirst (j + 1) (Nat.succ_lt_succ hj)
        simpa using h1
      rw [ih k hrest hfirst2]

theorem std_find_first (l : date_vec) (i j : Nat) (t : ptime) (hij : i ≤ j)
    (ht : l[j]? = some t) (hfirst : ∀ m, i ≤ m → m < j → l[m]? ≠ some t) :
    std_find l i t = j := by
  have h1 : (l.drop i)[j - i]? = some t := by
    rw [List.getElem?_drop, Nat.add_sub_cancel' hij]; exact ht
  have h2 : ∀ m, m < j - i → (l.drop i)[m]? ≠ some t := by
    intro m hm
    rw [List.getElem?_drop]
    exact hfirst (i + m) (Nat.le_add_right i m) (by omega)
  unfold std_find
  rw [indexOf_first _ _ _ h1 h2]
  omega

theorem hm_find_mem {β : Type} (m : hash_map β) (key : String) (v : β)
    (h : hm_find m key = some v) : (key, v) ∈ m := by
  induction m with
  | nil => simp [hm_find] at h
  | cons e rest ih =>
    obtain ⟨k, w⟩ := e
    by_cases hk : k = key
    · simp only [hm_find, hk, if_true, Option.some.injEq] at h
      simp [hk, h]
    · simp only [hm_find, hk, if_false] at h
      exact List.mem_cons_of_mem _ (ih h)

theorem get_row_cursor (s : time_series) (k : Int) (name : String) :
    (row_cursor s k).dereference.get s name
      = match hm_find s._variables name with
        | none => .error exception.forcing_lookup_error
        | some col => .ok (if 0 ≤ k then col[k.toNat]? else none) := by
  simp only [timestep.get, iterator.dereference, row_cursor]
  rw [hm_find_map_snd s._variables (fun e => (⟨e.1, k⟩ : vec_iterator)) name]
  rw [hm_find_eq_find s._variables name]
  cases hf : s._variables.find? (fun e => decide (e.1 = name)) with
  | none => simp
  | some e =>
    have he : e.1 = name := by simpa using List.find?_some hf
    simp only [Option.map_some', vec_iterator.read]
    rw [hm_find_eq_find s._variables e.1, he, hf]
    simp

theorem get_posix_row_cursor (s : time_series) (k : Nat) :
    (row_cursor s k).dereference.get_posix s = s._date_vec[k]? := by
  simp [timestep.get_posix, iterator.dereference, row_cursor]

/-! ## Claims C1 to C4: `find` and `range` -/

/-- C1, as stated, fails on a time index with a repeated timestamp: in `dup_store` rows
`0` and `1` both carry instant `5`, all columns have the length of the time index, and
`find` of the timestamp of row `1` returns the cursor of row `0`, whose `get "t"` is
`1`, not the value `2` of column `t` at row `1`. -/
theorem find_repeated_timestamp_reads_first_row :
    hm_wf dup_store._variables ∧ dup_store.rect ∧ dup_store._date_vec[1]? = some 5
      ∧ hm_find dup_store._variables "t" = some [1, 2]
      ∧ dup_store.find 5 = .ok (row_cursor dup_store 0)
      ∧ (row_cursor dup_store 0).dereference.get dup_store "t" = .ok (some 1)
      ∧ ([1, 2] : variable_vec)[1]? = some 2
      ∧ ¬ ∃ it, dup_store.find 5 = .ok it
          ∧ it.dereference.get dup_store "t" = .ok (([1, 2] : variable_vec)[1]?) := by
  refine ⟨by decide, by decide, by decide, by decide, by decide, by decide, by decide, ?_⟩
  rintro ⟨it, h1, h2⟩
  have h3 : dup_store.find 5 = .ok (row_cursor dup_store 0) := by decide
  rw [h3] at h1
  cases h1
  revert h2
  decide

/-- C1, amended: in a store whose columns all have the length of the time index, for a row
`k` whose timestamp `t` does not occur at an earlier row and a registered variable `v`
with column `col`, `find t` succeeds and `get v` on the returned cursor is `col[k]`. -/
theorem find_get_first_occurrence (s : time_series) (k : Nat) (t : ptime) (v : String)
    (col : variable_vec) (hwf : hm_wf s._variables) (hrect : s.rect)
    (ht : s._date_vec[k]? = some t) (hfirst : ∀ j, j < k → s._date_vec[j]? ≠ some t)
    (hv : hm_find s._variables v = some col) :
    ∃ it x, s.find t = .ok it ∧ it._currentStep.at_row s k ∧ col[k]? = some x
      ∧ it.dereference.get s v = .ok (some x) := by
  have hmem : t ∈ s._date_vec := List.mem_iff_getElem?.2 ⟨k, ht⟩
  have hidx : List.indexOf t s._date_vec = k := indexOf_first _ _ _ ht hfirst
  have hk : k < s._date_vec.length := (List.getElem?_eq_some.1 ht).1
  have hlen : col.length = s._date_vec.length := hrect _ (hm_find_mem _ _ _ hv)
  have hkc : k < col.length := by omega
  refine ⟨row_cursor s k, col[k], ?_, row_cursor_at_row s k, ?_, ?_⟩
  · rw [find_eq s t hwf hmem, hidx]
  · exact List.getElem?_eq_getElem hkc
  · rw [get_row_cursor, hv]
    simp [List.getElem?_eq_getElem hkc]

/-- Witness of `find_get_first_occurrence`: row `1` of `two_row_store`. -/
theorem find_get_first_occurrence_witness :
    ∃ it x, two_row_store.find 2 = .ok it ∧ it._currentStep.at_row two_row_store 1
      ∧ ([10, 20] : variable_vec)[1]? = some x
      ∧ it.dereference.get two_row_store "t" = .ok (some x) :=
  find_get_first_occurrence two_row_store 1 2 "t" [10, 20] (by decide) (by decide)
    (by decide) (by decide) (by decide)

/-- C2: `find t` throws `forcing_timestep_notfound` exactly when `t` does not occur in the
time index, and when `t` occurs it returns a cursor whose time-index iterator points at an
entry equal to `t`. -/
theorem find_notfound_iff (s : time_series) (t : ptime) (hwf : hm_wf s._variables) :
    (s.find t = .error exception.forcing_timestep_notfound ↔ t ∉ s._date_vec)
      ∧ (t ∈ s._date_vec →
          ∃ it, s.find t = .ok it ∧ it.dereference.get_posix s = some t) := by
  constructor
  · constructor
    · intro h hmem
      rw [find_eq s t hwf hmem] at h
      cases h
    · exact find_error s t
  · intro hmem
    refine ⟨_, find_eq s t hwf hmem, ?_⟩
    rw [get_posix_row_cursor]
    exact List.getElem?_indexOf hmem

/-- Witness of `find_notfound_iff`: `two_row_store` and the timestamp `2`. -/
theorem find_notfound_iff_witness :
    (two_row_store.find 2 = .error exception.forcing_timestep_notfound
        ↔ (2 : ptime) ∉ two_row_store._date_vec)
      ∧ ((2 : ptime) ∈ two_row_store._date_vec →
          ∃ it, two_row_store.find 2 = .ok it
            ∧ it.dereference.get_posix two_row_store = some 2) :=
  find_notfound_iff two_row_store 2 (by decide)

/-- C3, as stated, fails on a time index with a repeated timestamp: in `dup_store` rows
`0` and `1` both carry instant `5`, and `range` of the timestamps of rows `i = 1` and
`j = 1` returns a start cursor at row `0`, not at row `1`; the same call is `range` of
the timestamps of rows `i = 0` and `j = 1`, and its distance is `1`, not `j - i + 1 = 2`. -/
theorem range_repeated_timestamp_starts_at_first_row :
    hm_wf dup_store._variables ∧ dup_store._date_vec[0]? = some 5
      ∧ dup_store._date_vec[1]? = some 5
      ∧ dup_store.range 5 5 = .ok (row_cursor dup_store 0, row_cursor dup_store 1)
      ∧ (row_cursor dup_store 0).distance_to (row_cursor dup_store 1) = 1
      ∧ ¬ ∃ st en, dup_store.range 5 5 = .ok (st, en)
          ∧ st._currentStep.at_row dup_store 1 := by
  refine ⟨by decide, by decide, by decide, by decide, by decide, ?_⟩
  rintro ⟨st, en, h1, h2⟩
  have h3 : dup_store.range 5 5 = .ok (row_cursor dup_store 0, row_cursor dup_store 1) := by
    decide
  rw [h3] at h1
  cases h1
  revert h2
  decide

/-- C3, amended: for rows `i ≤ j` of the time index such that the timestamp `ti` of row
`i` does not occur before row `i` and the timestamp `tj` of row `j` does not occur in
rows `i` to `j - 1`, `range ti tj` returns a pair whose first cursor is at row `i`,
whose second cursor is at row `j + 1`, and whose distance is `j - i + 1`. -/
theorem range_first_occurrences (s : time_series) (i j : Nat) (ti tj : ptime)
    (hwf : hm_wf s._variables) (hij : i ≤ j)
    (hi : s._date_vec[i]? = some ti) (hj : s._date_vec[j]? = some tj)
    (hfi : ∀ m, m < i → s._date_vec[m]? ≠ some ti)
    (hfj : ∀ m, i ≤ m → m < j → s._date_vec[m]? ≠ some tj) :
    ∃ st en, s.range ti tj = .ok (st, en) ∧ st._currentStep.at_row s i
      ∧ en._currentStep.at_row s (j + 1)
      ∧ st.distance_to en = (j : Int) - (i : Int) + 1 := by
  have hmem : ti ∈ s._date_vec := List.mem_iff_getElem?.2 ⟨i, hi⟩
  have hidx : List.indexOf ti s._date_vec = i := indexOf_first _ _ _ hi hfi
  have hend : std_find s._date_vec i tj = j := std_find_first _ _ _ _ hij hj hfj
  refine ⟨row_cursor s i, row_cursor s ((j : Int) + 1), ?_, row_cursor_at_row s i,
    row_cursor_at_row s _, ?_⟩
  · rw [range_eq s ti tj hwf hmem, hidx, hend]
  · simp [iterator.distance_to, row_cursor]
    omega

/-- Witness of `range_first_occurrences`: rows `0` and `1` of `two_row_store`. -/
theorem range_first_occurrences_witness :
    ∃ st en, two_row_store.range 1 2 = .ok (st, en)
      ∧ st._currentStep.at_row two_row_store (0 : Nat)
      ∧ en._currentStep.at_row two_row_store ((1 : Nat) + 1)
      ∧ st.distance_to en = ((1 : Nat) : Int) - ((0 : Nat) : Int) + 1 :=
  range_first_occurrences two_row_store 0 1 1 2 (by decide) (by decide) (by decide)
    (by decide) (by decide) (by decide)

/-- C4 (the code does not do what the claim says): in `two_row_store` the start timestamp
`1` is in the time index and the end timestamp `7` is not, and `range 1 7` does not throw:
it returns the cursor of row `0` and a cursor at offset `3`, one past `end()`. -/
theorem range_absent_end_returns_cursors :
    (1 : ptime) ∈ two_row_store._date_vec ∧ (7 : ptime) ∉ two_row_store._date_vec
      ∧ two_row_store.range 1 7
          = .ok (row_cursor two_row_store 0, row_cursor two_row_store 3)
      ∧ two_row_store.range 1 7 ≠ .error exception.forcing_timestep_notfound
      ∧ time_series.end two_row_store = .ok (row_cursor two_row_store 2) := by
  decide

/-- C6: for a store with `N` rows, `begin()` and `end()` return iterators whose distance
is `N`. -/
theorem distance_begin_end (s : time_series) (hwf : hm_wf s._variables) :
    ∃ b e, s.begin = .ok b ∧ time_series.end s = .ok e
      ∧ b.distance_to e = s._date_vec.length := by
  refine ⟨row_cursor s 0, _, begin_eq s hwf, end_eq_ragged s hwf, ?_⟩
  simp [iterator.distance_to, row_cursor]

/-- Witness of `distance_begin_end`: `dup_store`, which has two rows. -/
theorem distance_begin_end_witness :
    ∃ b e, dup_store.begin = .ok b ∧ time_series.end dup_store = .ok e
      ∧ b.distance_to e = dup_store._date_vec.length :=
  distance_begin_end dup_store (by decide)

/-! ## Claim C5: `init` -/

theorem vec_resize_length (v : variable_vec) (n : Nat) : (vec_resize v n).length = n := by
  simp only [vec_resize, List.length_append, List.length_take, List.length_replicate]
  omega

theorem resize_all_ok (m : ts_hashmap) (n : Nat) :
    resize_all m (n : Int) = .ok (m.map (fun e => (e.1, vec_resize e.2 n))) := by
  induction m with
  | nil => rfl
  | cons e rest ih =>
    obtain ⟨k, v⟩ := e
    have hn : ¬ ((n : Int) < 0) := by omega
    simp [resize_all, hn, ih]

theorem hm_insert_keys {β : Type} (m : hash_map β) (key : String) (dflt : β) (v : String) :
    v ∈ hm_keys (hm_insert m key dflt).1 ↔ v ∈ hm_keys m ∨ v = key := by
  unfold hm_insert
  cases hf : hm_find m key with
  | none => simp [hm_keys]
  | some w =>
    have hmem : key ∈ hm_keys m := by
      by_contra hc
      rw [(hm_find_eq_none_iff m key).2 hc] at hf
      cases hf
    simp only
    constructor
    · intro h; exact Or.inl h
    · rintro (h | h)
      · exact h
      · rw [h]; exact hmem

theorem hm_insert_wf {β : Type} (m : hash_map β) (key : String) (dflt : β) (hwf : hm_wf m) :
    hm_wf (hm_insert m key dflt).1 := by
  unfold hm_insert
  cases hf : hm_find m key with
  | none =>
    have hnot : key ∉ hm_keys m := (hm_find_eq_none_iff m key).1 hf
    unfold hm_wf hm_keys at hwf ⊢
    unfold hm_keys at hnot
    simp only [List.map_append, List.map_cons, List.map_nil]
    rw [List.nodup_append]
    refine ⟨hwf, by simp, ?_⟩
    intro a ha hb
    have : a = key := by simpa using hb
    exact hnot (this ▸ ha)
  | some w => exact hwf

theorem insert_all_spec (names : List String) (m : ts_hashmap) (hwf : hm_wf m) :
    hm_wf (names.foldl (fun m v => (hm_insert m v []).1) m)
      ∧ ∀ v, v ∈ hm_keys (names.foldl (fun m v => (hm_insert m v []).1) m)
          ↔ v ∈ hm_keys m ∨ v ∈ names := by
  induction names generalizing m with
  | nil => simp [hwf]
  | cons a rest ih =>
    have h := ih (hm_insert m a []).1 (hm_insert_wf m a [] hwf)
    refine ⟨h.1, ?_⟩
    intro v
    simp only [List.foldl_cons]
    rw [h.2 v, hm_insert_keys]
    simp only [List.mem_cons]
    tauto

theorem list_variables_eq (s : time_series) : s.list_variables = hm_keys s._variables := by
  have h : ∀ (l : ts_hashmap) (acc : List String),
      l.foldl (fun vars itr => vars ++ [itr.1]) acc = acc ++ l.map Prod.fst := by
    intro l
    induction l with
    | nil => simp
    | cons e rest ih => intro acc; simp [ih]
  simp [time_series.list_variables, hm_keys, h]

/-- C5, as stated, fails when the size differs from the number of timestamps: `init` of
the name `t` with the one timestamp `7` and size `3` on an empty store succeeds and leaves
a column of length `3` beside a time index of length `1`. -/
theorem init_size_differs_from_timestamps :
    time_series.new.init ["t"] [7] 3
        = .ok { time_series.new with _variables := [("t", [0, 0, 0])], _date_vec := [7] }
      ∧ ¬ ∃ s2, time_series.new.init ["t"] [7] 3 = .ok s2
          ∧ (∀ e ∈ s2._variables, e.2.length = 3) ∧ 3 = s2._date_vec.length := by
  refine ⟨by decide, ?_⟩
  rintro ⟨s2, h1, _, h3⟩
  have h4 : time_series.new.init ["t"] [7] 3
      = .ok { time_series.new with _variables := [("t", [0, 0, 0])], _date_vec := [7] } := by
    decide
  rw [h4] at h1
  cases h1
  revert h3
  decide

/-- C5, amended: `init` with names `names`, timestamps `datetime` and a size `n ≥ 0` on an
empty store succeeds; afterwards the registered variables are exactly `names`, no name is
registered twice, every column has length `n`, and the time index is `datetime`.  The
columns have the length of the time index exactly when there is no name or
`n = len(datetime)`. -/
theorem init_column_lengths (names : List String) (datetime : date_vec) (n : Nat) :
    ∃ s2, time_series.new.init names datetime (n : Int) = .ok s2
      ∧ s2._date_vec = datetime
      ∧ (∀ v, v ∈ s2.list_variables ↔ v ∈ names)
      ∧ hm_wf s2._variables
      ∧ (∀ e ∈ s2._variables, e.2.length = n)
      ∧ (s2.rect ↔ names = [] ∨ n = datetime.length) := by
  have hspec := insert_all_spec names [] (by simp [hm_wf, hm_keys])
  have hlen : ∀ e ∈ (names.foldl (fun m v => (hm_insert m v []).1) ([] : ts_hashmap)).map
      (fun e => (e.1, vec_resize e.2 n)), e.2.length = n := by
    intro e he
    obtain ⟨e0, _, rfl⟩ := List.mem_map.1 he
    exact vec_resize_length _ _
  have hkeys : ∀ v, v ∈ hm_keys ((names.foldl (fun m v => (hm_insert m v []).1)
      ([] : ts_hashmap)).map (fun e => (e.1, vec_resize e.2 n))) ↔ v ∈ names := by
    intro v
    rw [hm_keys_map_snd, hspec.2 v]
    simp [hm_keys]
  refine ⟨{ time_series.new with
      _variables := (names.foldl (fun m v => (hm_insert m v []).1) ([] : ts_hashmap)).map
        (fun e => (e.1, vec_resize e.2 n)),
      _date_vec := datetime }, ?_, rfl, ?_, ?_, hlen, ?_⟩
  · simp only [time_series.init, time_series.new, resize_all_ok]
  · intro v
    rw [list_variables_eq]
    exact hkeys v
  · unfold hm_wf
    rw [hm_keys_map_snd]
    exact hspec.1
  · constructor
    · intro hrect
      cases names with
      | nil => exact Or.inl rfl
      | cons a rest =>
        right
        have ha : a ∈ hm_keys ((List.foldl (fun m v => (hm_insert m v []).1)
            ([] : ts_hashmap) (a :: rest)).map (fun e => (e.1, vec_resize e.2 n))) :=
          (hkeys a).2 (List.mem_cons_self a rest)
        obtain ⟨e, he, _⟩ := List.mem_map.1 ha
        have h1 := hrect e he
        have h2 := hlen e he
        simp only at h1
        omega
    · rintro (h | h)
      · subst h
        intro e he
        simp at he
      · intro e he
        have h2 := hlen e he
        simp only
        omega

/-! ## Claims C7 and C8: iterator equality -/

theorem equal_inner_fold (l : itr_map) (p : vec_iterator) (acc : Bool) :
    l.foldl (fun acc jtr => if p = jtr.2 then true else acc) acc
      = (acc || l.any (fun jtr => decide (p = jtr.2))) := by
  induction l generalizing acc with
  | nil => simp
  | cons e rest ih =>
    simp only [List.foldl_cons, List.any_cons, ih]
    by_cases h : p = e.2 <;> simp [h]

theorem equal_outer_fold (la lb : itr_map) (acc : Bool) :
    la.foldl (fun acc itr => lb.foldl (fun acc jtr => if itr.2 = jtr.2 then true else acc) acc)
        acc
      = (acc || la.any (fun itr => lb.any (fun jtr => decide (itr.2 = jtr.2)))) := by
  induction la generalizing acc with
  | nil => simp
  | cons e rest ih =>
    rw [List.foldl_cons, equal_inner_fold, ih]
    simp [Bool.or_assoc]

/-- What `equal` computes: the two cursors hold the same number of iterators, SOME iterator
of the first equals SOME iterator of the second, and the time-index iterators are equal. -/
theorem equal_eq (a b : iterator) :
    a.equal b
      = (decide (a._currentStep._itrs.length = b._currentStep._itrs.length)
          && (a._currentStep._itrs.any
                (fun itr => b._currentStep._itrs.any (fun jtr => decide (itr.2 = jtr.2)))
              && decide (a._currentStep._date_itr = b._currentStep._date_itr))) := by
  unfold iterator.equal
  by_cases hlen : a._currentStep._itrs.length = b._currentStep._itrs.length
  · simp only [hlen, ne_eq, not_true_eq_false, if_false, equal_outer_fold, Bool.false_or,
      decide_True, Bool.true_and]
    cases List.any a._currentStep._itrs
        (fun itr => b._currentStep._itrs.any (fun jtr => decide (itr.2 = jtr.2))) <;>
      by_cases hd : a._currentStep._date_itr = b._currentStep._date_itr <;> simp [hd]
  · simp [hlen]

/-- For a store with at least one variable, `equal` on two of its row cursors compares the
rows. -/
theorem equal_row_cursor (s : time_series) (k k2 : Int) (hne : s._variables ≠ []) :
    (row_cursor s k).equal (row_cursor s k2) = decide (k = k2) := by
  rw [equal_eq]
  by_cases h : k = k2
  · subst h
    obtain ⟨e, rest, hs⟩ := List.exists_cons_of_ne_nil hne
    simp [row_cursor, hs]
  · simp [row_cursor, h]

theorem eq_row_cursor_of_at_row (s : time_series) (it : iterator) (k : Int)
    (h : it._currentStep.at_row s k) : it = row_cursor s k := by
  cases it with
  | mk c =>
    cases c with
    | mk itrs d =>
      obtain ⟨h1, h2⟩ := h
      simp only at h1 h2
      subst h1
      subst h2
      rfl

theorem row_cursor_increment (s : time_series) (k : Int) (hwf : hm_wf s._variables) :
    (row_cursor s k).increment = row_cursor s (k + 1) :=
  eq_row_cursor_of_at_row s _ _ (at_row_increment s (row_cursor s k) k hwf (row_cursor_at_row s k))

theorem row_cursor_decrement (s : time_series) (k : Int) (hwf : hm_wf s._variables) :
    (row_cursor s k).decrement = row_cursor s (k - 1) :=
  eq_row_cursor_of_at_row s _ _ (at_row_decrement s (row_cursor s k) k hwf (row_cursor_at_row s k))

/-- For a store with at least one variable, a decrement followed by an increment, and an
increment followed by a decrement, give a cursor that `equal` accepts as the original. -/
theorem increment_decrement_equal (s : time_series) (k : Int) (hwf : hm_wf s._variables)
    (hne : s._variables ≠ []) :
    (row_cursor s k).decrement.increment.equal (row_cursor s k) = true
      ∧ (row_cursor s k).increment.decrement.equal (row_cursor s k) = true := by
  rw [row_cursor_decrement s k hwf, row_cursor_increment s (k - 1) hwf,
    row_cursor_increment s k hwf, row_cursor_decrement s (k + 1) hwf,
    equal_row_cursor s _ _ hne, equal_row_cursor s _ _ hne]
  simp

/-- C7 (the code does not do what the claim says): in `no_var_store`, which has three rows
and no variable, the iterator `find 2` is at row `1`, strictly between `begin()` and
`end()`; a decrement followed by an increment, and an increment followed by a decrement,
give back the very same iterator, yet `equal` returns `false` for it. -/
theorem equal_false_without_variables :
    no_var_store.find 2 = .ok (row_cursor no_var_store 1)
      ∧ no_var_store.begin = .ok (row_cursor no_var_store 0)
      ∧ time_series.end no_var_store = .ok (row_cursor no_var_store 3)
      ∧ (row_cursor no_var_store 0).distance_to (row_cursor no_var_store 1) = 1
      ∧ (row_cursor no_var_store 1).distance_to (row_cursor no_var_store 3) = 2
      ∧ (row_cursor no_var_store 1).decrement.increment = row_cursor no_var_store 1
      ∧ (row_cursor no_var_store 1).increment.decrement = row_cursor no_var_store 1
      ∧ (row_cursor no_var_store 1).decrement.increment.equal (row_cursor no_var_store 1)
          = false
      ∧ (row_cursor no_var_store 1).increment.decrement.equal (row_cursor no_var_store 1)
          = false := by
  decide

/-- C8 (the code does not do what the claim says): `equal` is `false` on two copies of
`begin()` of `no_var_store`, which hold the same number (zero) of iterators and the same
row; and `equal` is `true` on `end()` of `ragged_store` and its row-`2` cursor (`begin()`
incremented twice), which hold two iterators each and differ in the iterator of `rh`. -/
theorem equal_is_not_pointwise :
    no_var_store.begin = .ok (row_cursor no_var_store 0)
      ∧ (row_cursor no_var_store 0)._currentStep._itrs.length = 0
      ∧ (row_cursor no_var_store 0).equal (row_cursor no_var_store 0) = false
      ∧ ragged_store.begin = .ok (row_cursor ragged_store 0)
      ∧ (row_cursor ragged_store 0).increment.increment = row_cursor ragged_store 2
      ∧ time_series.end ragged_store
          = .ok { _currentStep := { _itrs := [("t", ⟨"t", 2⟩), ("rh", ⟨"rh", 3⟩)],
                                    _date_itr := 2 } }
      ∧ (row_cursor ragged_store 2)._currentStep._itrs = [("t", ⟨"t", 2⟩), ("rh", ⟨"rh", 2⟩)]
      ∧ (row_cursor ragged_store 2).equal
          { _currentStep := { _itrs := [("t", ⟨"t", 2⟩), ("rh", ⟨"rh", 3⟩)],
                              _date_itr := 2 } } = true := by
  decide

/-! ## Claims C9 and C10: the lock-step invariant and `get` -/

theorem find_at_row (s : time_series) (t : ptime) (it : iterator) (hwf : hm_wf s._variables)
    (h : s.find t = .ok it) : ∃ k : Nat, it._currentStep.at_row s k := by
  by_cases hmem : t ∈ s._date_vec
  · rw [find_eq s t hwf hmem] at h
    cases h
    exact ⟨_, row_cursor_at_row s _⟩
  · rw [find_error s t hmem] at h
    cases h

theorem range_error (s : time_series) (t0 t1 : ptime) (ht : t0 ∉ s._date_vec) :
    s.range t0 t1 = .error exception.forcing_timestep_notfound := by
  have h : List.indexOf t0 s._date_vec = s._date_vec.length := List.indexOf_eq_length.2 ht
  simp [time_series.range, std_find_zero, h]

theorem range_at_row (s : time_series) (t0 t1 : ptime) (a b : iterator)
    (hwf : hm_wf s._variables) (h : s.range t0 t1 = .ok (a, b)) :
    ∃ ka kb : Nat, a._currentStep.at_row s ka ∧ b._currentStep.at_row s kb := by
  by_cases hmem : t0 ∈ s._date_vec
  · rw [range_eq s t0 t1 hwf hmem] at h
    cases h
    exact ⟨_, _ + 1, row_cursor_at_row s _, row_cursor_at_row s _⟩
  · rw [range_error s t0 t1 hmem] at h
    cases h

/-- C9: in a store whose columns all have the length `N` of the time index, `begin()`
returns a cursor with every pointer at row `0`, `end()` one with every pointer at row `N`,
every cursor returned by `find` or `range` has all its pointers at one row (and `find` and
`range` do return cursors for timestamps of the index), `increment` and `decrement` take a
cursor with all pointers at row `k` to one with all pointers at row `k + 1` and `k - 1`,
and so every cursor reached by a sequence of increments and decrements has all its
pointers at one row. -/
theorem lock_step_invariant (s : time_series) (hwf : hm_wf s._variables) (hrect : s.rect) :
    (∃ b, s.begin = .ok b ∧ b._currentStep.at_row s 0)
      ∧ (∃ e, time_series.end s = .ok e ∧ e._currentStep.at_row s s._date_vec.length)
      ∧ (∀ t it, s.find t = .ok it → ∃ k : Nat, it._currentStep.at_row s k)
      ∧ (∀ t, t ∈ s._date_vec → ∃ it, s.find t = .ok it)
      ∧ (∀ t0 t1 a b, s.range t0 t1 = .ok (a, b) →
          ∃ ka kb : Nat, a._currentStep.at_row s ka ∧ b._currentStep.at_row s kb)
      ∧ (∀ t0 t1, t0 ∈ s._date_vec → ∃ a b, s.range t0 t1 = .ok (a, b))
      ∧ (∀ (it : iterator) (k : Int), it._currentStep.at_row s k →
          it.increment._currentStep.at_row s (k + 1)
            ∧ it.decrement._currentStep.at_row s (k - 1))
      ∧ (∀ (it : iterator) (k : Int) (moves : List Bool), it._currentStep.at_row s k →
          ∃ k2 : Int, (it.walk moves)._currentStep.at_row s k2) := by
  refine ⟨⟨_, begin_eq s hwf, row_cursor_at_row s 0⟩,
    ⟨_, end_eq s hwf hrect, row_cursor_at_row s _⟩,
    fun t it h => find_at_row s t it hwf h,
    fun t ht => ⟨_, find_eq s t hwf ht⟩,
    fun t0 t1 a b h => range_at_row s t0 t1 a b hwf h,
    fun t0 t1 ht => ⟨_, _, range_eq s t0 t1 hwf ht⟩,
    fun it k h => ⟨at_row_increment s it k hwf h, at_row_decrement s it k hwf h⟩,
    fun it k moves h => at_row_walk s moves it k hwf h⟩

/-- Witness of `lock_step_invariant`: `dup_store`. -/
theorem lock_step_invariant_witness :
    (∃ b, dup_store.begin = .ok b ∧ b._currentStep.at_row dup_store 0)
      ∧ (∃ e, time_series.end dup_store = .ok e
          ∧ e._currentStep.at_row dup_store dup_store._date_vec.length)
      ∧ (∀ t it, dup_store.find t = .ok it → ∃ k : Nat, it._currentStep.at_row dup_store k)
      ∧ (∀ t, t ∈ dup_store._date_vec → ∃ it, dup_store.find t = .ok it)
      ∧ (∀ t0 t1 a b, dup_store.range t0 t1 = .ok (a, b) →
          ∃ ka kb : Nat, a._currentStep.at_row dup_store ka
            ∧ b._currentStep.at_row dup_store kb)
      ∧ (∀ t0 t1, t0 ∈ dup_store._date_vec → ∃ a b, dup_store.range t0 t1 = .ok (a, b))
      ∧ (∀ (it : iterator) (k : Int), it._currentStep.at_row dup_store k →
          it.increment._currentStep.at_row dup_store (k + 1)
            ∧ it.decrement._currentStep.at_row dup_store (k - 1))
      ∧ (∀ (it : iterator) (k : Int) (moves : List Bool),
          it._currentStep.at_row dup_store k →
          ∃ k2 : Int, (it.walk moves)._currentStep.at_row dup_store k2) :=
  lock_step_invariant dup_store (by decide) (by decide)

/-- C10: for a cursor `c` at a row `k < N` of a store whose columns all have length `N`,
`get name` throws `forcing_lookup_error` exactly when `name` is not one of the cursor's
variables; otherwise it returns the value at row `k` of the column the store holds under
`name`, and so does `face_data`.  (`get` is a function of the store and the cursor: it
writes to neither.) -/
theorem get_at_row (s : time_series) (c : timestep) (k : Nat) (name : String)
    (hrect : s.rect) (hk : k < s._date_vec.length) (hc : c.at_row s k) :
    (c.get s name = .error exception.forcing_lookup_error ↔ name ∉ hm_keys c._itrs)
      ∧ (name ∈ hm_keys c._itrs →
          ∃ col x, hm_find s._variables name = some col ∧ col[k]? = some x
            ∧ c.get s name = .ok (some x)
            ∧ face_data s { _currentStep := c } name = .ok (some x)) := by
  have hit : ({ _currentStep := c } : iterator) = row_cursor s k :=
    eq_row_cursor_of_at_row s _ _ hc
  have hget : c.get s name = (row_cursor s k).dereference.get s name := by
    rw [← hit]; rfl
  have hkeys : hm_keys c._itrs = hm_keys s._variables := by
    rw [hc.1, hm_keys_map_snd]
  rw [hkeys]
  constructor
  · rw [hget, get_row_cursor, ← hm_find_eq_none_iff]
    cases hm_find s._variables name with
    | none => simp
    | some col => simp
  · intro hmem
    cases hf : hm_find s._variables name with
    | none => exact absurd hmem ((hm_find_eq_none_iff _ _).1 hf)
    | some col =>
      have hlen : col.length = s._date_vec.length := hrect _ (hm_find_mem _ _ _ hf)
      have hkc : k < col.length := by omega
      have hval : c.get s name = .ok (some col[k]) := by
        rw [hget, get_row_cursor, hf]
        simp [List.getElem?_eq_getElem hkc]
      exact ⟨col, col[k], rfl, List.getElem?_eq_getElem hkc, hval, hval⟩

/-- Witness of `get_at_row`: the cursor at row `1` of `two_row_store` and the name `t`. -/
theorem get_at_row_witness :
    ((row_cursor two_row_store 1)._currentStep.get two_row_store "t"
          = .error exception.forcing_lookup_error
        ↔ "t" ∉ hm_keys (row_cursor two_row_store 1)._currentStep._itrs)
      ∧ ("t" ∈ hm_keys (row_cursor two_row_store 1)._currentStep._itrs →
          ∃ col x, hm_find two_row_store._variables "t" = some col ∧ col[1]? = some x
            ∧ (row_cursor two_row_store 1)._currentStep.get two_row_store "t" = .ok (some x)
            ∧ face_data two_row_store { _currentStep := (row_cursor two_row_store 1)._currentStep }
                "t" = .ok (some x)) :=
  get_at_row two_row_store (row_cursor two_row_store 1)._currentStep 1 "t" (by decide)
    (by decide) (by decide)

/-! ## Claims C11 to C14: `set`, `push_back`, `get_time_series` -/

theorem hm_keys_modify {β : Type} (m : hash_map β) (key : String) (f : β → β) :
    hm_keys (hm_modify m key f) = hm_keys m := by
  induction m with
  | nil => rfl
  | cons e rest ih =>
    obtain ⟨k, v⟩ := e
    by_cases h : k = key
    · simp [hm_modify, hm_keys, h]
    · simp only [hm_modify, h, if_false]
      simp only [hm_keys, List.map_cons] at ih ⊢
      rw [ih]

theorem hm_find_modify {β : Type} (m : hash_map β) (key : String) (f : β → β) (v : String) :
    hm_find (hm_modify m key f) v
      = if v = key then (hm_find m key).map f else hm_find m v := by
  induction m with
  | nil => simp [hm_modify, hm_find]
  | cons e rest ih =>
    obtain ⟨k, w⟩ := e
    by_cases h : k = key
    · subst h
      by_cases hv : v = k
      · subst hv; simp [hm_modify, hm_find]
      · have hv2 : ¬ k = v := fun h2 => hv h2.symm
        simp [hm_modify, hm_find, hv, hv2]
    · by_cases hv : v = key
      · subst hv
        simp only [hm_modify, h, if_false, hm_find, ih, if_true]
      · by_cases hkv : k = v
        · simp [hm_modify, h, hm_find, hkv, hv]
        · simp [hm_modify, h, hm_find, hkv, hv, ih]

theorem itrs_of_keys (m : ts_hashmap) (k : Int) :
    m.map (fun e => (e.1, (⟨e.1, k⟩ : vec_iterator)))
      = (hm_keys m).map (fun n => (n, (⟨n, k⟩ : vec_iterator))) := by
  simp [hm_keys, List.map_map, Function.comp_def]

theorem at_row_of_keys (s s2 : time_series) (c : timestep) (k : Int)
    (hkeys : hm_keys s2._variables = hm_keys s._variables) (hc : c.at_row s k) :
    c.at_row s2 k := by
  refine ⟨?_, hc.2⟩
  rw [hc.1, itrs_of_keys, itrs_of_keys, hkeys]

theorem hm_mem_keys_find {β : Type} (m : hash_map β) (key : String) (h : key ∈ hm_keys m) :
    ∃ v, hm_find m key = some v := by
  cases hf : hm_find m key with
  | none => exact absurd h ((hm_find_eq_none_iff m key).1 hf)
  | some v => exact ⟨v, rfl⟩

/-- C11: for a cursor `c` at a row `k < N` of a store whose columns all have length `N`, a
name known to the cursor and a value `x`, `set name x` (and `set_face_data`) succeeds;
afterwards `get name` returns `x`, the column of `name` is the old one with `x` at row `k`
and every other row unchanged, every other column is unchanged, the set of names, the
column lengths, the time index and the scalar fields of the store are unchanged, and the
cursor is still at row `k`.  For a name unknown to the cursor `set` throws
`forcing_lookup_error` (and returns no changed store). -/
theorem set_at_row (s : time_series) (c : timestep) (k : Nat) (name : String) (x : double)
    (hrect : s.rect) (hk : k < s._date_vec.length) (hc : c.at_row s k) :
    (name ∈ hm_keys c._itrs →
        ∃ col s2, hm_find s._variables name = some col
          ∧ c.set s name x = .ok (some s2)
          ∧ set_face_data s { _currentStep := c } name x = .ok (some s2)
          ∧ c.get s2 name = .ok (some x)
          ∧ hm_find s2._variables name = some (col.set k x)
          ∧ (col.set k x)[k]? = some x
          ∧ (∀ j, j ≠ k → (col.set k x)[j]? = col[j]?)
          ∧ (col.set k x).length = col.length
          ∧ (∀ v, v ≠ name → hm_find s2._variables v = hm_find s._variables v)
          ∧ s2.list_variables = s.list_variables
          ∧ s2 = { s with _variables := s2._variables }
          ∧ c.at_row s2 k)
      ∧ (name ∉ hm_keys c._itrs →
          c.set s name x = .error exception.forcing_lookup_error
            ∧ set_face_data s { _currentStep := c } name x
                = .error exception.forcing_lookup_error) := by
  have hkeys : hm_keys c._itrs = hm_keys s._variables := by
    rw [hc.1, hm_keys_map_snd]
  have hfind : hm_find c._itrs name
      = (s._variables.find? (fun e => decide (e.1 = name))).map
          (fun e => (⟨e.1, (k : Int)⟩ : vec_iterator)) := by
    rw [hc.1]; exact hm_find_map_snd _ _ _
  constructor
  · intro hmem
    rw [hkeys] at hmem
    obtain ⟨col, hcol⟩ := hm_mem_keys_find _ _ hmem
    have hlen : col.length = s._date_vec.length := hrect _ (hm_find_mem _ _ _ hcol)
    have hkc : k < col.length := by omega
    have hptr : hm_find c._itrs name = some ⟨name, (k : Int)⟩ := by
      rw [hfind]
      have h2 := hm_find_eq_find s._variables name
      rw [hcol] at h2
      cases hf : s._variables.find? (fun e => decide (e.1 = name)) with
      | none => rw [hf] at h2; cases h2
      | some e =>
        have he : e.1 = name := by simpa using List.find?_some hf
        simp [he]
    have hset : c.set s name x = .ok (some
        { s with _variables := hm_modify s._variables name (fun c => c.set k x) }) := by
      simp [timestep.set, hptr, vec_iterator.write, hcol, hkc]
    have hkeys2 : hm_keys (hm_modify s._variables name (fun c => c.set k x))
        = hm_keys s._variables := hm_keys_modify _ _ _
    have hat : c.at_row
        { s with _variables := hm_modify s._variables name (fun c => c.set k x) } k :=
      at_row_of_keys s _ c k hkeys2 hc
    have hfind2 : hm_find (hm_modify s._variables name (fun c => c.set k x)) name
        = some (col.set k x) := by
      rw [hm_find_modify, hcol]; simp
    have hkc2 : k < (col.set k x).length := by simpa using hkc
    refine ⟨col, _, hcol, hset, hset, ?_, hfind2, ?_, ?_, ?_, ?_, ?_, rfl, hat⟩
    · have hget : ∀ s2 : time_series, c.at_row s2 k →
          c.get s2 name = (row_cursor s2 k).dereference.get s2 name := by
        intro s2 h2
        rw [← eq_row_cursor_of_at_row s2 { _currentStep := c } k h2]; rfl
      rw [hget _ hat, get_row_cursor]
      simp only [hfind2]
      simp [List.getElem?_eq_getElem hkc2]
    · simp [List.getElem?_eq_getElem hkc2]
    · intro j hj
      exact List.getElem?_set_ne (Ne.symm hj)
    · simp
    · intro v hv
      simp only
      rw [hm_find_modify, if_neg hv]
    · rw [list_variables_eq, list_variables_eq]
      exact hkeys2
  · intro hmem
    have hnone : hm_find c._itrs name = none := (hm_find_eq_none_iff _ _).2 hmem
    simp [set_face_data, iterator.dereference, timestep.set, hnone]

/-- Witness of `set_at_row`: the cursor at row `1` of `two_row_store`, the name `t` and the
value `7`. -/
theorem set_at_row_witness :
    ("t" ∈ hm_keys (row_cursor two_row_store 1)._currentStep._itrs →
        ∃ col s2, hm_find two_row_store._variables "t" = some col
          ∧ (row_cursor two_row_store 1)._currentStep.set two_row_store "t" 7 = .ok (some s2)
          ∧ set_face_data two_row_store
              { _currentStep := (row_cursor two_row_store 1)._currentStep } "t" 7
                = .ok (some s2)
          ∧ (row_cursor two_row_store 1)._currentStep.get s2 "t" = .ok (some 7)
          ∧ hm_find s2._variables "t" = some (col.set 1 7)
          ∧ (col.set 1 7)[1]? = some 7
          ∧ (∀ j, j ≠ 1 → (col.set 1 7)[j]? = col[j]?)
          ∧ (col.set 1 7).length = col.length
          ∧ (∀ v, v ≠ "t" → hm_find s2._variables v = hm_find two_row_store._variables v)
          ∧ s2.list_variables = two_row_store.list_variables
          ∧ s2 = { two_row_store with _variables := s2._variables }
          ∧ (row_cursor two_row_store 1)._currentStep.at_row s2 (1 : Nat))
      ∧ ("t" ∉ hm_keys (row_cursor two_row_store 1)._currentStep._itrs →
          (row_cursor two_row_store 1)._currentStep.set two_row_store "t" 7
              = .error exception.forcing_lookup_error
            ∧ set_face_data two_row_store
                { _currentStep := (row_cursor two_row_store 1)._currentStep } "t" 7
                = .error exception.forcing_lookup_error) :=
  set_at_row two_row_store (row_cursor two_row_store 1)._currentStep 1 "t" 7 (by decide)
    (by decide) (by decide)

/-- C12: for a registered name with column `col`, `push_back x name` leaves the column of
`name` equal to `col` followed by `x`, leaves every other column, the registered names and
the time index unchanged, and changes nothing else in the store. -/
theorem push_back_registered (s : time_series) (name : String) (x : double)
    (col : variable_vec) (h : hm_find s._variables name = some col) :
    hm_find (s.push_back x name)._variables name = some (col ++ [x])
      ∧ (∀ v, v ≠ name → hm_find (s.push_back x name)._variables v = hm_find s._variables v)
      ∧ (s.push_back x name).list_variables = s.list_variables
      ∧ (s.push_back x name)._date_vec = s._date_vec
      ∧ s.push_back x name
          = { s with _variables := hm_modify s._variables name (fun c => c ++ [x]) } := by
  have hpb : s.push_back x name
      = { s with _variables := hm_modify s._variables name (fun c => c ++ [x]) } := by
    simp [time_series.push_back, hm_insert, h]
  refine ⟨?_, ?_, ?_, ?_, hpb⟩
  · rw [hpb]; simp only; rw [hm_find_modify, h]; simp
  · intro v hv
    rw [hpb]; simp only; rw [hm_find_modify, if_neg hv]
  · rw [hpb, list_variables_eq, list_variables_eq]
    exact hm_keys_modify _ _ _
  · rw [hpb]

/-- Witness of `push_back_registered`: `two_row_store`, the name `t` and the value `30`. -/
theorem push_back_registered_witness :
    hm_find (two_row_store.push_back 30 "t")._variables "t" = some ([10, 20] ++ [30])
      ∧ (∀ v, v ≠ "t" → hm_find (two_row_store.push_back 30 "t")._variables v
            = hm_find two_row_store._variables v)
      ∧ (two_row_store.push_back 30 "t").list_variables = two_row_store.list_variables
      ∧ (two_row_store.push_back 30 "t")._date_vec = two_row_store._date_vec
      ∧ two_row_store.push_back 30 "t"
          = { two_row_store with
              _variables := hm_modify two_row_store._variables "t" (fun c => c ++ [30]) } :=
  push_back_registered two_row_store "t" 30 [10, 20] (by decide)

/-- C13, as stated, fails: `init_store` is the store `init` leaves for the name `t`, the
name `rh` is not registered in it, and `push_back 3 "rh"` registers `rh`: `list_variables`
is `["t"]` before the call and `["t", "rh"]` after it. -/
theorem push_back_registers_new_name :
    time_series.new.init ["t"] [1, 2] 2 = .ok init_store
      ∧ hm_find init_store._variables "rh" = none
      ∧ init_store.list_variables = ["t"]
      ∧ (init_store.push_back 3 "rh").list_variables = ["t", "rh"]
      ∧ ¬ (∀ v, v ∈ (init_store.push_back 3 "rh").list_variables
            ↔ v ∈ init_store.list_variables) := by
  refine ⟨by decide, by decide, by decide, by decide, ?_⟩
  intro h
  have h2 := (h "rh").1 (by decide)
  revert h2
  decide

/-- C13, amended: for a name that is not registered, `push_back x name` registers it:
`name` is not among the names of `list_variables` before the call, the names afterwards
are the old names and `name`, one name more than before, the column of `name` is the one
value `x`, and every other column and the time index are unchanged.  Nothing is said of
the place of `name` among the names. -/
theorem push_back_unregistered (s : time_series) (name : String) (x : double)
    (h : hm_find s._variables name = none) :
    name ∉ s.list_variables
      ∧ (∀ v, v ∈ (s.push_back x name).list_variables ↔ v ∈ s.list_variables ∨ v = name)
      ∧ (s.push_back x name).list_variables.length = s.list_variables.length + 1
      ∧ hm_find (s.push_back x name)._variables name = some [x]
      ∧ (∀ v, v ≠ name → hm_find (s.push_back x name)._variables v = hm_find s._variables v)
      ∧ (s.push_back x name)._date_vec = s._date_vec := by
  have hnot : name ∉ hm_keys s._variables := (hm_find_eq_none_iff _ _).1 h
  have hmod : hm_modify (s._variables ++ [(name, ([] : variable_vec))]) name
      (fun c => c ++ [x]) = s._variables ++ [(name, [x])] := by
    rw [hm_modify_append_of_not_mem _ _ _ _ hnot]; simp [hm_modify]
  have hpb : s.push_back x name = { s with _variables := s._variables ++ [(name, [x])] } := by
    simp only [time_series.push_back, hm_insert, h, hmod]
  have hfind : ∀ v, hm_find (s._variables ++ [(name, [x])]) v
      = if v = name then some [x] else hm_find s._variables v := by
    intro v
    have hgen : ∀ m : ts_hashmap, name ∉ hm_keys m →
        hm_find (m ++ [(name, [x])]) v = if v = name then some [x] else hm_find m v := by
      intro m
      induction m with
      | nil =>
        intro _
        by_cases hv : v = name
        · simp [hm_find, hv]
        · have hv2 : ¬ name = v := fun h2 => hv h2.symm
          simp [hm_find, hv, hv2]
      | cons e rest ih =>
        obtain ⟨k, w⟩ := e
        intro hn
        have hk : ¬ k = name := by
          intro hk; apply hn; simp [hm_keys, hk]
        have hr : name ∉ hm_keys rest := by
          intro hr; apply hn
          simp only [hm_keys, List.map_cons, List.mem_cons]; right; exact hr
        by_cases hkv : k = v
        · have hvn : ¬ v = name := fun h2 => hk (hkv.trans h2)
          simp [hm_find, hkv, hvn]
        · simp [hm_find, hkv, ih hr]
    exact hgen _ hnot
  have hlist : (s.push_back x name).list_variables = s.list_variables ++ [name] := by
    rw [hpb, list_variables_eq, list_variables_eq]; simp [hm_keys]
  refine ⟨?_, ?_, ?_, ?_, ?_, ?_⟩
  · rw [list_variables_eq]; exact hnot
  · intro v
    rw [hlist]; simp
  · rw [hlist]; simp
  · rw [hpb]; simp only; rw [hfind]; simp
  · intro v hv
    rw [hpb]; simp only; rw [hfind, if_neg hv]
  · rw [hpb]

/-- Witness of `push_back_unregistered`: `init_store`, the name `rh` and the value `3`. -/
theorem push_back_unregistered_witness :
    "rh" ∉ init_store.list_variables
      ∧ (∀ v, v ∈ (init_store.push_back 3 "rh").list_variables
            ↔ v ∈ init_store.list_variables ∨ v = "rh")
      ∧ (init_store.push_back 3 "rh").list_variables.length
          = init_store.list_variables.length + 1
      ∧ hm_find (init_store.push_back 3 "rh")._variables "rh" = some [3]
      ∧ (∀ v, v ≠ "rh" → hm_find (init_store.push_back 3 "rh")._variables v
            = hm_find init_store._variables v)
      ∧ (init_store.push_back 3 "rh")._date_vec = init_store._date_vec :=
  push_back_unregistered init_store "rh" 3 (by decide)

/-- C14: `get_time_series name` throws exactly when `name` is not registered (the exception
of this lookup is `forcing_error`), and otherwise returns the column stored under
`name`. -/
theorem get_time_series_iff (s : time_series) (name : String) :
    (s.get_time_series name = .error exception.forcing_error ↔ name ∉ s.list_variables)
      ∧ ((∃ e, s.get_time_series name = .error e) ↔ name ∉ s.list_variables)
      ∧ (∀ col, hm_find s._variables name = some col → s.get_time_series name = .ok col)
      ∧ (name ∈ s.list_variables →
          ∃ col, s.get_time_series name = .ok col ∧ (name, col) ∈ s._variables) := by
  rw [list_variables_eq]
  cases hf : hm_find s._variables name with
  | none =>
    have hnot : name ∉ hm_keys s._variables := (hm_find_eq_none_iff _ _).1 hf
    simp [time_series.get_time_series, hf, hnot]
  | some col =>
    have hmem : (name, col) ∈ s._variables := hm_find_mem _ _ _ hf
    have hin : name ∈ hm_keys s._variables := by
      simp only [hm_keys, List.mem_map]
      exact ⟨(name, col), hmem, rfl⟩
    simp [time_series.get_time_series, hf, hin, hmem]

/-! ## Reading a file: the tokens of one line -/

theorem hm_keys_erase {β : Type} (m : hash_map β) (key : String) :
    hm_keys (hm_erase m key) = (hm_keys m).erase key := by
  induction m with
  | nil => rfl
  | cons e rest ih =>
    obtain ⟨k, v⟩ := e
    by_cases h : k = key
    · subst h
      simp [hm_erase, hm_keys]
    · have h2 : (k == key) = false := by simpa using h
      simp only [hm_erase, h, if_false, hm_keys, List.map_cons, List.erase_cons, h2]
      simp only [hm_keys] at ih
      rw [ih]
      rfl

theorem hm_find_erase_ne {β : Type} (m : hash_map β) (key v : String) (hv : v ≠ key) :
    hm_find (hm_erase m key) v = hm_find m v := by
  induction m with
  | nil => rfl
  | cons e rest ih =>
    obtain ⟨k, w⟩ := e
    by_cases h : k = key
    · subst h
      have hkv : ¬ k = v := fun h2 => hv h2.symm
      simp [hm_erase, hm_find, hkv]
    · by_cases hkv : k = v
      · subst hkv
        simp [hm_erase, hm_find, h]
      · simp [hm_erase, hm_find, h, hkv, ih]

theorem hm_wf_erase {β : Type} (m : hash_map β) (key : String) (hwf : hm_wf m) :
    hm_wf (hm_erase m key) := by
  unfold hm_wf at hwf ⊢
  rw [hm_keys_erase]
  exact hwf.erase key

theorem hm_wf_modify {β : Type} (m : hash_map β) (key : String) (f : β → β) (hwf : hm_wf m) :
    hm_wf (hm_modify m key f) := by
  unfold hm_wf at hwf ⊢
  rw [hm_keys_modify]
  exact hwf

theorem dateTime_go_short (l : List Char) (skip : Nat) (h : l.length ≤ skip) :
    dateTime_go l skip = [] := by
  induction l generalizing skip with
  | nil => rfl
  | cons c rest ih =>
    cases skip with
    | zero => simp at h
    | succ k =>
      simp only [dateTime_go]
      exact ih k (by simpa using h)

theorem dropWhile_digits (l : List Char) (n : Nat) (x : Char) (hall : (l.take n).all Char.isDigit = true)
    (hx : l[n]? = some x) (hnd : Char.isDigit x = false) :
    l.dropWhile Char.isDigit = l.drop n := by
  induction n generalizing l with
  | zero =>
    cases l with
    | nil => simp at hx
    | cons c rest =>
      have : c = x := by simpa using hx
      subst this
      simp [List.dropWhile_cons, hnd]
  | succ k ih =>
    cases l with
    | nil => simp at hx
    | cons c rest =>
      have hc : Char.isDigit c = true := by
        simp only [List.take_succ_cons, List.all_cons, Bool.and_eq_true] at hall
        exact hall.1
      have hrest : (rest.take k).all Char.isDigit = true := by
        simp only [List.take_succ_cons, List.all_cons, Bool.and_eq_true] at hall
        exact hall.2
      have hx2 : rest[k]? = some x := by simpa using hx
      simp only [List.dropWhile_cons, hc, if_true, List.drop_succ_cons]
      exact ih rest hrest hx2

theorem number_token_classified (tok : String) (h : is_number_token tok = true) :
    floating_tokenize tok = [tok] ∧ ∃ x, lexical_cast_double tok = some x := by
  unfold is_number_token at h
  cases hf : floating_match tok.data with
  | none => rw [hf] at h; cases h
  | some p => simp [floating_tokenize, lexical_cast_double, hf]

theorem datetime_token_classified (tok : String) (h : is_datetime_token tok = true) :
    floating_tokenize tok = [] ∧ dateTime_tokenize tok = [tok]
      ∧ ∃ t, from_iso_string tok = .ok t := by
  unfold is_datetime_token at h
  rw [Bool.and_eq_true] at h
  obtain ⟨h1, h2⟩ := h
  have h1 : dateTime_at_start tok.data = some tok.data := by simpa using h1
  have hiso : ∃ t, from_iso_string tok = .ok t := by
    cases hf : from_iso_string tok with
    | ok t => exact ⟨t, rfl⟩
    | error e => rw [hf] at h2; cases h2
  unfold dateTime_at_start at h1
  split at h1
  · rename_i hcond
    have hcond2 := hcond
    obtain ⟨hlen, h8, hT, _⟩ := hcond
    have htake : tok.data.take 15 = tok.data := by simpa using h1
    have hl : tok.data.length = 15 := by rw [← htake]; exact hlen
    refine ⟨?_, ?_, hiso⟩
    · -- the floating pattern does not match: the ninth character is `T`
      have hdrop : tok.data.dropWhile Char.isDigit = tok.data.drop 8 :=
        dropWhile_digits tok.data 8 ('T' : Char) h8 hT (by decide)
      have h8lt : 8 < tok.data.length := by omega
      have hget : tok.data[8] = ('T' : Char) := by
        have := List.getElem?_eq_getElem h8lt
        rw [this] at hT
        exact Option.some.inj hT
      have hdrop2 : tok.data.drop 8 = ('T' : Char) :: tok.data.drop 9 := by
        rw [List.drop_eq_getElem_cons h8lt, hget]
      cases hd : tok.data with
      | nil => rw [hd] at hl; simp at hl
      | cons c rest =>
        have hc : Char.isDigit c = true := by
          rw [hd] at h8
          simp only [List.take_succ_cons, List.all_cons, Bool.and_eq_true] at h8
          exact h8.1
        have hcm : ¬ c = ('-' : Char) := by
          intro hc2; rw [hc2] at hc; revert hc; decide
        have hcp : ¬ c = ('+' : Char) := by
          intro hc2; rw [hc2] at hc; revert hc; decide
        have hsplit : split_sign (c :: rest) = (false, c :: rest) := by
          simp [split_sign, hcm, hcp]
        have hfm : floating_match (c :: rest) = none := by
          unfold floating_match
          rw [hsplit]
          simp only
          rw [← hd, hdrop, hdrop2]
          simp
        simp [floating_tokenize, hd, hfm]
    · cases hd : tok.data with
      | nil => rw [hd] at hl; simp at hl
      | cons c rest =>
        have hrest : rest.length ≤ 14 := by
          rw [hd] at hl; simp at hl; omega
        have hpre : dateTime_at_start (c :: rest) = some (c :: rest) := by
          rw [← hd]
          unfold dateTime_at_start
          rw [if_pos hcond2, htake]
        have hmk : String.mk (c :: rest) = tok := by
          rw [← hd]
        simp [dateTime_tokenize, hd, dateTime_go, hpre, dateTime_go_short rest 14 hrest, hmk]
  · cases h1

theorem row_dates_nil (hd : String) (hdr : List String) : row_dates hd hdr [] = [] := by
  cases hdr <;> rfl

theorem row_vals_nil (hdr : List String) (v : String) : row_vals hdr [] v = [] := by
  cases hdr <;> rfl

/-- The token loop on well-formed tokens: it goes through them without throwing, appends
each number to the column of its header name, appends each instant to the time index and
erases the name of the datetime column, and goes on with the tokens that follow. -/
theorem open_row_tokens_ok (hd : String) (toks hdr : List String) (cols : Int)
    (s : time_series) (hok : tokens_ok hd hdr toks = true)
    (hreg : ∀ h, h ∈ hdr → h ≠ hd → h ∈ hm_keys s._variables) (hwf : hm_wf s._variables) :
    ∃ s2, (∀ more, open_row_tokens (toks ++ more) hdr cols s
              = open_row_tokens more (hdr.drop toks.length) (cols + toks.length) s2)
      ∧ s2._date_vec = s._date_vec ++ row_dates hd hdr toks
      ∧ s2._cols = s._cols ∧ s2._rows = s._rows ∧ s2._isOpen = s._isOpen
      ∧ s2._file = s._file ∧ s2._timeseries_size = s._timeseries_size
      ∧ hm_wf s2._variables
      ∧ hm_keys s2._variables
          = (if hd ∈ hdr.take toks.length then (hm_keys s._variables).erase hd
             else hm_keys s._variables)
      ∧ ∀ v, v ≠ hd →
          hm_find s2._variables v
            = (hm_find s._variables v).map (fun col => col ++ row_vals hdr toks v) := by
  induction toks generalizing hdr cols s with
  | nil =>
    refine ⟨s, ?_, ?_, rfl, rfl, rfl, rfl, rfl, hwf, ?_, ?_⟩
    · intro more; simp
    · simp [row_dates_nil]
    · simp
    · intro v _; simp [row_vals_nil]
  | cons tok rest ih =>
    cases hdr with
    | nil => simp [tokens_ok] at hok
    | cons h hdr2 =>
      simp only [tokens_ok, Bool.and_eq_true] at hok
      obtain ⟨htok, hrest⟩ := hok
      by_cases hh : h = hd
      · -- the datetime column
        rw [if_pos hh] at htok
        obtain ⟨hfl, hdt, t, ht⟩ := datetime_token_classified tok htok
        have hwf1 : hm_wf (hm_erase s._variables h) := hm_wf_erase _ _ hwf
        have hreg1 : ∀ h2, h2 ∈ hdr2 → h2 ≠ hd → h2 ∈ hm_keys (hm_erase s._variables h) := by
          intro h2 hm hne
          rw [hm_keys_erase, hh]
          exact (List.mem_erase_of_ne hne).2 (hreg h2 (List.mem_cons_of_mem _ hm) hne)
        obtain ⟨s2, hrun, hdate, hc, hr, ho, hf, hts, hwf2, hkeys, hfind⟩ :=
          ih hdr2 (cols + 1)
            { s with _date_vec := s._date_vec ++ [t], _variables := hm_erase s._variables h }
            hrest hreg1 hwf1
        refine ⟨s2, ?_, ?_, hc, hr, ho, hf, hts, hwf2, ?_, ?_⟩
        · intro more
          have := hrun more
          simp only [List.cons_append, open_row_tokens, hfl, hdt, ht, List.length_cons,
            List.drop_succ_cons]
          refine this.trans ?_
          congr 1
          push_cast
          ring
        · rw [hdate]
          simp [row_dates, hh, ht]
        · rw [hkeys]
          simp only [hm_keys_erase, List.length_cons, List.take_succ_cons, hh, List.mem_cons,
            true_or, if_true]
          have hnot : hd ∉ (hm_keys s._variables).erase hd := hwf.not_mem_erase
          rw [List.erase_of_not_mem hnot]
          simp
        · intro v hv
          rw [hfind v hv]
          simp only
          rw [hm_find_erase_ne _ _ _ (by rw [hh]; exact hv)]
          have hhv : ¬ h = v := by rw [hh]; exact fun h2 => hv h2.symm
          simp [row_vals, hhv]
      · -- a numeric column
        rw [if_neg hh] at htok
        obtain ⟨hfl, x, hx⟩ := number_token_classified tok htok
        have hmem : h ∈ hm_keys s._variables := hreg h (List.mem_cons_self _ _) hh
        obtain ⟨col, hcol⟩ := hm_mem_keys_find _ _ hmem
        have hwf1 : hm_wf (hm_modify s._variables h (fun col => col ++ [x])) :=
          hm_wf_modify _ _ _ hwf
        have hreg1 : ∀ h2, h2 ∈ hdr2 → h2 ≠ hd →
            h2 ∈ hm_keys (hm_modify s._variables h (fun col => col ++ [x])) := by
          intro h2 hm hne
          rw [hm_keys_modify]
          exact hreg h2 (List.mem_cons_of_mem _ hm) hne
        obtain ⟨s2, hrun, hdate, hc, hr, ho, hf, hts, hwf2, hkeys, hfind⟩ :=
          ih hdr2 (cols + 1)
            { s with _variables := hm_modify s._variables h (fun col => col ++ [x]) }
            hrest hreg1 hwf1
        refine ⟨s2, ?_, ?_, hc, hr, ho, hf, hts, hwf2, ?_, ?_⟩
        · intro more
          have := hrun more
          simp only [List.cons_append, open_row_tokens, hfl, hcol, hx, List.length_cons,
            List.drop_succ_cons]
          refine this.trans ?_
          congr 1
          push_cast
          ring
        · rw [hdate]
          simp [row_dates, hh]
        · rw [hkeys]
          simp only [hm_keys_modify, List.length_cons, List.take_succ_cons, List.mem_cons]
          have hne : ¬ hd = h := fun h2 => hh h2.symm
          simp [hne]
        · intro v hv
          rw [hfind v hv]
          simp only
          rw [hm_find_modify]
          by_cases hvh : v = h
          · subst hvh
            simp [row_vals, hx, hcol]
          · have hhv : ¬ h = v := fun h2 => hvh h2.symm
            simp [row_vals, hvh, hhv]

/-! ## Reading a file: the lines -/

theorem data_rows_cons (line : String) (rest : List String) :
    data_rows (line :: rest)
      = if (tokenize line).length ≠ 0 then tokenize line :: data_rows rest
        else data_rows rest := by
  by_cases h : (tokenize line).length ≠ 0
  · have h2 : ¬ tokenize line = [] := fun h2 => h (by rw [h2]; rfl)
    simp [data_rows, List.filter_cons, h2]
  · have h2 : tokenize line = [] := List.length_eq_zero.1 (Decidable.not_not.1 h)
    simp [data_rows, List.filter_cons, h2]

theorem loaded_rows_field (header : List String) (hd : String) (done : List (List String))
    (s : time_series) (r : Int) (h : loaded header hd done s) :
    loaded header hd done { s with _rows := r } := h

/-- One well-formed row read by the token loop keeps the store `loaded`. -/
theorem loaded_after_row (header : List String) (hd : String) (hnd : header.Nodup)
    (done : List (List String)) (toks : List String) (s : time_series)
    (hrow : row_ok hd header toks = true) (hinv : loaded header hd done s) :
    ∃ s2, (∀ more, open_row_tokens (toks ++ more) header 0 s
              = open_row_tokens more [] (header.length : Int) s2)
      ∧ loaded header hd (done ++ [toks]) s2
      ∧ s2._rows = s._rows ∧ s2._isOpen = s._isOpen ∧ s2._file = s._file
      ∧ s2._timeseries_size = s._timeseries_size := by
  obtain ⟨hcols, hwf, hkeys, hfind, hdates⟩ := hinv
  unfold row_ok at hrow
  rw [Bool.and_eq_true] at hrow
  obtain ⟨hok, hlen⟩ := hrow
  have hlen : toks.length = header.length := by simpa using hlen
  have hreg : ∀ h, h ∈ header → h ≠ hd → h ∈ hm_keys s._variables := by
    intro h hm hne
    rcases hkeys with hk | ⟨_, hk⟩
    · rw [hk]; exact (List.mem_erase_of_ne hne).2 hm
    · rw [hk]; exact hm
  obtain ⟨s2, hrun, hdate2, hc2, hr2, ho2, hf2, hts2, hwf2, hkeys2, hfind2⟩ :=
    open_row_tokens_ok hd toks header 0 s hok hreg hwf
  refine ⟨s2, ?_, ⟨?_, hwf2, ?_, ?_, ?_⟩, hr2, ho2, hf2, hts2⟩
  · intro more
    rw [hrun more, hlen]
    simp
  · rw [hc2, hcols]
  · left
    rw [hkeys2, hlen, List.take_length]
    by_cases hmem : hd ∈ header
    · rw [if_pos hmem]
      rcases hkeys with hk | ⟨_, hk⟩
      · rw [hk, List.erase_of_not_mem hnd.not_mem_erase]
      · rw [hk]
    · rw [if_neg hmem]
      rcases hkeys with hk | ⟨_, hk⟩
      · exact hk
      · rw [hk, List.erase_of_not_mem hmem]
  · intro v hv hne
    rw [hfind2 v hne, hfind v hv hne]
    simp
  · rw [hdate2, hdates]
    simp

/-- The line loop on well-formed lines (blank lines and well-formed rows): it goes through
them without throwing, keeps the store `loaded`, counts every line in `lines` and every row
in `_rows`, and goes on with the lines that follow. -/
theorem open_rows_ok (header : List String) (hd : String) (hnd : header.Nodup)
    (lines : List String) (done : List (List String)) (s : time_series) (n : Int)
    (hlines : ∀ line, line ∈ lines →
      tokenize line = [] ∨ row_ok hd header (tokenize line) = true)
    (hinv : loaded header hd done s) :
    ∃ s2, (∀ more, open_rows (lines ++ more) n header s
              = open_rows more (n + lines.length) header s2)
      ∧ loaded header hd (done ++ data_rows lines) s2
      ∧ s2._rows = s._rows + (data_rows lines).length ∧ s2._isOpen = s._isOpen
      ∧ s2._file = s._file ∧ s2._timeseries_size = s._timeseries_size := by
  induction lines generalizing done s n with
  | nil =>
    refine ⟨s, ?_, ?_, ?_, rfl, rfl, rfl⟩
    · intro more; simp
    · simpa [data_rows] using hinv
    · simp [data_rows]
  | cons line rest ih =>
    have hrest : ∀ l, l ∈ rest → tokenize l = [] ∨ row_ok hd header (tokenize l) = true :=
      fun l hl => hlines l (List.mem_cons_of_mem _ hl)
    by_cases hblank : (tokenize line).length ≠ 0
    · have hrow : row_ok hd header (tokenize line) = true := by
        rcases hlines line (List.mem_cons_self _ _) with h | h
        · rw [h] at hblank; simp at hblank
        · exact h
      obtain ⟨s1, hrun1, hinv1, hr1, ho1, hf1, hts1⟩ :=
        loaded_after_row header hd hnd done (tokenize line) s hrow hinv
      have hcols1 : s1._cols = header.length := hinv1.1
      obtain ⟨s2, hrun2, hinv2, hr2, ho2, hf2, hts2⟩ :=
        ih (done ++ [tokenize line]) { s1 with _rows := s1._rows + 1 } (n + 1) hrest
          (loaded_rows_field _ _ _ _ _ hinv1)
      refine ⟨s2, ?_, ?_, ?_, ?_, ?_, ?_⟩
      · intro more
        have h1 := hrun1 []
        simp only [List.append_nil, open_row_tokens] at h1
        have h2 := hrun2 more
        have hne : ¬ ((header.length : Int) ≠ s1._cols) := by rw [hcols1]; simp
        simp only [List.cons_append, open_rows]
        rw [if_pos hblank]
        simp only [h1, hne, if_false]
        refine h2.trans ?_
        congr 1
        simp only [List.length_cons]
        push_cast
        ring
      · rw [data_rows_cons, if_pos hblank]
        simpa using hinv2
      · rw [data_rows_cons, if_pos hblank, hr2]
        simp only [hr1, List.length_cons]
        push_cast
        ring
      · rw [ho2]; exact ho1
      · rw [hf2]; exact hf1
      · rw [hts2]; exact hts1
    · obtain ⟨s2, hrun2, hinv2, hr2, ho2, hf2, hts2⟩ := ih done s (n + 1) hrest hinv
      refine ⟨s2, ?_, ?_, ?_, ho2, hf2, hts2⟩
      · intro more
        have h2 := hrun2 more
        simp only [List.cons_append, open_rows]
        rw [if_neg hblank]
        refine h2.trans ?_
        congr 1
        simp only [List.length_cons]
        push_cast
        ring
      · rw [data_rows_cons, if_neg hblank]
        exact hinv2
      · rw [data_rows_cons, if_neg hblank]
        exact hr2

/-! ## Reading a file: header and validation -/

theorem open_header_skip (blanks : List String) (hline : String) (rest : List String)
    (hblanks : ∀ b, b ∈ blanks → tokenize b = []) (hne : tokenize hline ≠ []) :
    open_header (blanks ++ hline :: rest) = some (tokenize hline, rest) := by
  induction blanks with
  | nil =>
    have h : (tokenize hline).length ≠ 0 := fun h => hne (List.length_eq_zero.1 h)
    simp only [List.nil_append, open_header]
    rw [if_pos h]
  | cons b bs ih =>
    have hb : tokenize b = [] := hblanks b (List.mem_cons_self _ _)
    have hbs : ∀ b2, b2 ∈ bs → tokenize b2 = [] :=
      fun b2 h2 => hblanks b2 (List.mem_cons_of_mem _ h2)
    simp only [List.cons_append, open_header, hb, List.length_nil, ne_eq, not_true_eq_false,
      if_false]
    exact ih hbs

theorem open_insert_header_ok (header : List String) (s : time_series) (hnd : header.Nodup)
    (hdisj : ∀ h, h ∈ header → h ∉ hm_keys s._variables) :
    open_insert_header header s
      = .returns { s with
          _variables := s._variables ++ header.map (fun h => (h, ([] : variable_vec))) } := by
  induction header generalizing s with
  | nil => simp [open_insert_header]
  | cons h rest ih =>
    have hnone : hm_find s._variables h = none :=
      (hm_find_eq_none_iff _ _).2 (hdisj h (List.mem_cons_self _ _))
    have hnd2 : rest.Nodup := (List.nodup_cons.1 hnd).2
    have hnot : h ∉ rest := (List.nodup_cons.1 hnd).1
    have hdisj2 : ∀ h2, h2 ∈ rest →
        h2 ∉ hm_keys (s._variables ++ [(h, ([] : variable_vec))]) := by
      intro h2 hm hmem
      simp only [hm_keys, List.map_append, List.mem_append, List.map_cons, List.map_nil,
        List.mem_singleton] at hmem
      rcases hmem with hmem | hmem
      · exact hdisj h2 (List.mem_cons_of_mem _ hm) (by simpa [hm_keys] using hmem)
      · exact hnot (hmem ▸ hm)
    simp only [open_insert_header, hm_insert, hnone]
    rw [ih _ hnd2 hdisj2]
    simp

theorem hm_find_of_mem_wf {β : Type} (m : hash_map β) (key : String) (v : β) (hwf : hm_wf m)
    (h : (key, v) ∈ m) : hm_find m key = some v := by
  induction m with
  | nil => simp at h
  | cons e rest ih =>
    obtain ⟨k, w⟩ := e
    have hnd := List.nodup_cons.1 (show ((k :: hm_keys rest).Nodup) from hwf)
    rcases List.mem_cons.1 h with heq | hmem
    · cases heq
      simp [hm_find]
    · have hk : ¬ k = key := by
        intro hk
        apply hnd.1
        rw [hk]
        simp only [hm_keys, List.mem_map]
        exact ⟨(key, v), hmem, rfl⟩
      simp only [hm_find, hk, if_false]
      exact ih hnd.2 hmem

theorem hm_find_header_map (header : List String) (v : String) (hv : v ∈ header) :
    hm_find (header.map (fun h => (h, ([] : variable_vec)))) v = some [] := by
  induction header with
  | nil => simp at hv
  | cons h rest ih =>
    by_cases hh : h = v
    · simp [hm_find, hh]
    · have hv2 : v ∈ rest := by
        rcases List.mem_cons.1 hv with h2 | h2
        · exact absurd h2.symm hh
        · exact h2
      simp [hm_find, hh, ih hv2]

theorem loaded_initial (header : List String) (hd : String) (hnd : header.Nodup)
    (s : time_series) :
    loaded header hd []
      { s with _cols := header.length,
               _variables := header.map (fun h => (h, ([] : variable_vec))),
               _date_vec := [] } := by
  refine ⟨rfl, ?_, Or.inr ⟨rfl, ?_⟩, ?_, rfl⟩
  · unfold hm_wf hm_keys
    simpa [List.map_map, Function.comp_def] using hnd
  · simp [hm_keys, List.map_map, Function.comp_def]
  · intro v hv _
    simpa using hm_find_header_map header v hv

theorem open_validate_ok (hs : List String) (s : time_series)
    (h : ∀ v, v ∈ hs →
      ∃ col, hm_find s._variables v = some col ∧ col.length = s._date_vec.length) :
    open_validate hs s = .returns s := by
  induction hs with
  | nil => rfl
  | cons v rest ih =>
    obtain ⟨col, hcol, hlen⟩ := h v (List.mem_cons_self _ _)
    have hne : ¬ (s._date_vec.length ≠ col.length) := by rw [hlen]; simp
    simp only [open_validate, hcol]
    rw [if_neg hne]
    exact ih (fun v2 h2 => h v2 (List.mem_cons_of_mem _ h2))

theorem open_validate_returns (hs : List String) (s s2 : time_series)
    (h : open_validate hs s = .returns s2) :
    s2 = s ∧ ∀ v, v ∈ hs →
      ∃ col, hm_find s._variables v = some col ∧ col.length = s._date_vec.length := by
  induction hs with
  | nil =>
    simp only [open_validate, outcome.returns.injEq] at h
    exact ⟨h.symm, by simp⟩
  | cons v rest ih =>
    simp only [open_validate] at h
    cases hf : hm_find s._variables v with
    | none => rw [hf] at h; cases h
    | some col =>
      rw [hf] at h
      simp only at h
      by_cases hne : s._date_vec.length ≠ col.length
      · rw [if_pos hne] at h; cases h
      · rw [if_neg hne] at h
        obtain ⟨h1, h2⟩ := ih h
        refine ⟨h1, ?_⟩
        intro v2 hv2
        rcases List.mem_cons.1 hv2 with heq | hmem
        · rw [heq]; exact ⟨col, hf, (Decidable.not_not.1 hne).symm⟩
        · exact h2 v2 hmem

theorem open_validate_cases (hs : List String) (s : time_series) :
    open_validate hs s = .returns s
      ∨ open_validate hs s = .throws exception.forcing_lookup_error s := by
  induction hs with
  | nil => exact Or.inl rfl
  | cons v rest ih =>
    simp only [open_validate]
    cases hf : hm_find s._variables v with
    | none => exact Or.inr rfl
    | some col =>
      simp only
      by_cases hne : s._date_vec.length ≠ col.length
      · rw [if_pos hne]; exact Or.inr rfl
      · rw [if_neg hne]; exact ih

/-- The method `open` on an empty store and a file made of blank lines, a header line of
distinct names, well-formed lines `good` and further lines `more`: the store is `loaded`
with the rows of `good` when the line loop reaches `more`. -/
theorem open_up_to (path contents : String) (blanks : List String) (hline : String)
    (good more : List String) (hd : String)
    (hfile : getlines contents = blanks ++ hline :: (good ++ more))
    (hblanks : ∀ b, b ∈ blanks → tokenize b = []) (hne : tokenize hline ≠ [])
    (hnd : (tokenize hline).Nodup)
    (hgood : ∀ line, line ∈ good →
      tokenize line = [] ∨ row_ok hd (tokenize hline) (tokenize line) = true) :
    ∃ s1, loaded (tokenize hline) hd (data_rows good) s1
      ∧ s1._rows = (data_rows good).length ∧ s1._isOpen = false ∧ s1._file = ""
      ∧ s1._timeseries_size = 0
      ∧ time_series.new.open path (some contents)
          = match open_rows more (good.length : Int) (tokenize hline) s1 with
            | .returns (lines, s2) =>
              open_validate (hm_keys s2._variables)
                { s2 with _isOpen := true, _file := path, _timeseries_size := lines }
            | .throws e s2 => .throws e s2
            | .undefined => .undefined
            | .diverges => .diverges := by
  have hins := open_insert_header_ok (tokenize hline)
    { time_series.new with _cols := (tokenize hline).length } hnd (by simp [time_series.new, hm_keys])
  have hinit := loaded_initial (tokenize hline) hd hnd time_series.new
  obtain ⟨s1, hrun, hinv, hr, ho, hf, hts⟩ :=
    open_rows_ok (tokenize hline) hd hnd good [] _ 0 hgood hinit
  refine ⟨s1, by simpa using hinv, ?_, ?_, ?_, ?_, ?_⟩
  · rw [hr]; simp [time_series.new]
  · rw [ho]; rfl
  · rw [hf]; rfl
  · rw [hts]; rfl
  · have hrun2 := hrun more
    simp only [time_series.open, hfile, open_header_skip blanks hline _ hblanks hne, hins]
    simp only [time_series.new, List.nil_append] at hrun2 ⊢
    rw [hrun2]
    simp

/-! ## Claim C15: a well-formed file -/

theorem row_vals_not_mem (hdr toks : List String) (v : String) (hv : v ∉ hdr) :
    row_vals hdr toks v = [] := by
  induction hdr generalizing toks with
  | nil => cases toks <;> rfl
  | cons h rest ih =>
    cases toks with
    | nil => rfl
    | cons tok toks2 =>
      have hh : ¬ h = v := fun h2 => hv (h2 ▸ List.mem_cons_self _ _)
      have hr : v ∉ rest := fun h2 => hv (List.mem_cons_of_mem _ h2)
      simp [row_vals, hh, ih toks2 hr]

theorem row_vals_at (hdr toks : List String) (i : Nat) (v tok : String) (hnd : hdr.Nodup)
    (hv : hdr[i]? = some v) (htok : toks[i]? = some tok) :
    row_vals hdr toks v = (lexical_cast_double tok).toList := by
  induction hdr generalizing toks i with
  | nil => simp at hv
  | cons h rest ih =>
    cases toks with
    | nil => simp at htok
    | cons t0 toks2 =>
      have hnd2 := List.nodup_cons.1 hnd
      cases i with
      | zero =>
        have h1 : h = v := by simpa using hv
        have h2 : t0 = tok := by simpa using htok
        subst h1; subst h2
        simp [row_vals, row_vals_not_mem rest toks2 h hnd2.1]
      | succ j =>
        have hv2 : rest[j]? = some v := by simpa using hv
        have ht2 : toks2[j]? = some tok := by simpa using htok
        have hmem : v ∈ rest := List.mem_iff_getElem?.2 ⟨j, hv2⟩
        have hh : ¬ h = v := fun h3 => hnd2.1 (h3 ▸ hmem)
        simp [row_vals, hh, ih toks2 j hnd2.2 hv2 ht2]

theorem row_dates_not_mem (hd : String) (hdr toks : List String) (hv : hd ∉ hdr) :
    row_dates hd hdr toks = [] := by
  induction hdr generalizing toks with
  | nil => cases toks <;> rfl
  | cons h rest ih =>
    cases toks with
    | nil => rfl
    | cons tok toks2 =>
      have hh : ¬ h = hd := fun h2 => hv (h2 ▸ List.mem_cons_self _ _)
      have hr : hd ∉ rest := fun h2 => hv (List.mem_cons_of_mem _ h2)
      simp [row_dates, hh, ih toks2 hr]

theorem row_dates_at (hd : String) (hdr toks : List String) (i : Nat) (tok : String) (t : ptime)
    (hnd : hdr.Nodup) (hv : hdr[i]? = some hd) (htok : toks[i]? = some tok)
    (ht : from_iso_string tok = .ok t) : row_dates hd hdr toks = [t] := by
  induction hdr generalizing toks i with
  | nil => simp at hv
  | cons h rest ih =>
    cases toks with
    | nil => simp at htok
    | cons t0 toks2 =>
      have hnd2 := List.nodup_cons.1 hnd
      cases i with
      | zero =>
        have h1 : h = hd := by simpa using hv
        have h2 : t0 = tok := by simpa using htok
        subst h1; subst h2
        simp [row_dates, ht, row_dates_not_mem h rest toks2 hnd2.1]
      | succ j =>
        have hv2 : rest[j]? = some hd := by simpa using hv
        have ht2 : toks2[j]? = some tok := by simpa using htok
        have hmem : hd ∈ rest := List.mem_iff_getElem?.2 ⟨j, hv2⟩
        have hh : ¬ h = hd := fun h3 => hnd2.1 (h3 ▸ hmem)
        simp [row_dates, hh, ih toks2 j hnd2.2 hv2 ht2]

theorem tokens_ok_at (hd : String) (hdr toks : List String) (i : Nat) (h tok : String)
    (hok : tokens_ok hd hdr toks = true) (hh : hdr[i]? = some h) (htok : toks[i]? = some tok) :
    (if h = hd then is_datetime_token tok else is_number_token tok) = true := by
  induction hdr generalizing toks i with
  | nil => simp at hh
  | cons h0 rest ih =>
    cases toks with
    | nil => simp at htok
    | cons t0 toks2 =>
      simp only [tokens_ok, Bool.and_eq_true] at hok
      cases i with
      | zero =>
        have h1 : h0 = h := by simpa using hh
        have h2 : t0 = tok := by simpa using htok
        subst h1; subst h2
        exact hok.1
      | succ j =>
        exact ih toks2 j hok.2 (by simpa using hh) (by simpa using htok)

theorem flatten_singletons {α β : Type} (rows : List α) (f : α → List β)
    (h : ∀ r, r ∈ rows → (f r).length = 1) :
    (rows.map f).flatten.length = rows.length
      ∧ ∀ (k : Nat) (r : α), rows[k]? = some r →
          (rows.map f).flatten[k]? = (f r)[(0 : Nat)]? := by
  induction rows with
  | nil => simp
  | cons r0 rest ih =>
    obtain ⟨ih1, ih2⟩ := ih (fun r hr => h r (List.mem_cons_of_mem _ hr))
    have h0 : (f r0).length = 1 := h r0 (List.mem_cons_self _ _)
    obtain ⟨x, hx⟩ : ∃ x, f r0 = [x] := by
      cases hf : f r0 with
      | nil => rw [hf] at h0; simp at h0
      | cons x xs =>
        cases xs with
        | nil => exact ⟨x, rfl⟩
        | cons y ys => rw [hf] at h0; simp at h0
    constructor
    · simp [hx, ih1]
    · intro k r hk
      cases k with
      | zero =>
        have : r0 = r := by simpa using hk
        subst this
        simp [hx]
      | succ j =>
        have hj : rest[j]? = some r := by simpa using hk
        simp only [List.map_cons, List.flatten_cons, hx, List.singleton_append,
          List.getElem?_cons_succ]
        exact ih2 j r hj

theorem mem_data_rows (lines : List String) (row : List String) (h : row ∈ data_rows lines) :
    ∃ line, line ∈ lines ∧ tokenize line = row ∧ row ≠ [] := by
  simp only [data_rows, List.mem_filter, List.mem_map, ne_eq, decide_eq_true_eq] at h
  obtain ⟨⟨line, hl, heq⟩, hne⟩ := h
  exact ⟨line, hl, heq, fun h2 => hne (by rw [h2]; rfl)⟩

theorem row_ok_of_mem (hd : String) (header : List String) (body : List String)
    (hbody : ∀ line, line ∈ body →
      tokenize line = [] ∨ row_ok hd header (tokenize line) = true)
    (row : List String) (hrow : row ∈ data_rows body) :
    tokens_ok hd header row = true ∧ row.length = header.length := by
  obtain ⟨line, hl, heq, hne⟩ := mem_data_rows body row hrow
  rcases hbody line hl with h | h
  · exact absurd (heq ▸ h) hne
  · rw [heq] at h
    unfold row_ok at h
    rw [Bool.and_eq_true] at h
    exact ⟨h.1, by simpa using h.2⟩

theorem row_vals_singleton (hd : String) (header row : List String) (v : String)
    (hnd : header.Nodup) (hok : tokens_ok hd header row = true)
    (hlen : row.length = header.length) (hv : v ∈ header) (hne : v ≠ hd) :
    (row_vals header row v).length = 1 := by
  obtain ⟨i, hi⟩ := List.mem_iff_getElem?.1 hv
  have hilt : i < header.length := (List.getElem?_eq_some.1 hi).1
  have hirow : i < row.length := by omega
  have htok : row[i]? = some row[i] := List.getElem?_eq_getElem hirow
  have hcls := tokens_ok_at hd header row i v row[i] hok hi htok
  rw [if_neg hne] at hcls
  obtain ⟨_, x, hx⟩ := number_token_classified _ hcls
  rw [row_vals_at header row i v row[i] hnd hi htok, hx]
  rfl

theorem row_dates_singleton (hd : String) (header row : List String)
    (hnd : header.Nodup) (hok : tokens_ok hd header row = true)
    (hlen : row.length = header.length) (hv : hd ∈ header) :
    (row_dates hd header row).length = 1 := by
  obtain ⟨i, hi⟩ := List.mem_iff_getElem?.1 hv
  have hilt : i < header.length := (List.getElem?_eq_some.1 hi).1
  have hirow : i < row.length := by omega
  have htok : row[i]? = some row[i] := List.getElem?_eq_getElem hirow
  have hcls := tokens_ok_at hd header row i hd row[i] hok hi htok
  rw [if_pos rfl] at hcls
  obtain ⟨_, _, t, ht⟩ := datetime_token_classified _ hcls
  rw [row_dates_at hd header row i row[i] t hnd hi htok ht]
  rfl

theorem hm_find_some_mem_keys {β : Type} (m : hash_map β) (key : String) (v : β)
    (h : hm_find m key = some v) : key ∈ hm_keys m := by
  by_contra hc
  rw [(hm_find_eq_none_iff m key).2 hc] at h
  cases h

theorem open_rows_lines (ls : List String) (n : Int) (header : List String)
    (s s2 : time_series) (l : Int) (h : open_rows ls n header s = .returns (l, s2)) :
    l = n + ls.length := by
  induction ls generalizing n s with
  | nil =>
    simp only [open_rows, outcome.returns.injEq, Prod.mk.injEq] at h
    simp [h.1]
  | cons line rest ih =>
    simp only [open_rows] at h
    by_cases hb : (tokenize line).length ≠ 0
    · rw [if_pos hb] at h
      cases hr : open_row_tokens (tokenize line) header 0 s with
      | returns p =>
        obtain ⟨c, s1⟩ := p
        rw [hr] at h
        simp only at h
        by_cases hc : c ≠ s1._cols
        · rw [if_pos hc] at h; cases h
        · rw [if_neg hc] at h
          rw [ih _ _ h]
          simp only [List.length_cons]; push_cast; ring
      | throws e s1 => rw [hr] at h; cases h
      | undefined => rw [hr] at h; cases h
      | diverges => rw [hr] at h; cases h
    · rw [if_neg hb] at h
      rw [ih _ _ h]
      simp only [List.length_cons]; push_cast; ring

/-- What a return of `open` records: the store is marked open, the path is stored, and
`_timeseries_size` is the number of lines that follow the header line, blank ones
included; the columns were checked against the time index. -/
theorem open_returns (s : time_series) (path contents : String) (s2 : time_series)
    (h : s.open path (some contents) = .returns s2) :
    s2.is_open = true ∧ s2.get_opened_file = path
      ∧ (∃ header rest, open_header (getlines contents) = some (header, rest)
          ∧ s2.get_timeseries_size = rest.length)
      ∧ ∀ v, v ∈ s2.list_variables →
          ∃ col, hm_find s2._variables v = some col ∧ col.length = s2._date_vec.length := by
  simp only [time_series.open] at h
  cases hh : open_header (getlines contents) with
  | none => rw [hh] at h; cases h
  | some p =>
    obtain ⟨header, rest⟩ := p
    rw [hh] at h
    simp only at h
    cases hi : open_insert_header header { s with _cols := header.length } with
    | throws e s1 => rw [hi] at h; cases h
    | undefined => rw [hi] at h; cases h
    | diverges => rw [hi] at h; cases h
    | returns s1 =>
      rw [hi] at h
      simp only at h
      cases hr : open_rows rest 0 header s1 with
      | throws e s3 => rw [hr] at h; cases h
      | undefined => rw [hr] at h; cases h
      | diverges => rw [hr] at h; cases h
      | returns q =>
        obtain ⟨lines, s3⟩ := q
        rw [hr] at h
        simp only at h
        obtain ⟨heq, hcols⟩ := open_validate_returns _ _ _ h
        have hl := open_rows_lines _ _ _ _ _ _ hr
        subst heq
        refine ⟨rfl, rfl, ⟨header, rest, rfl, ?_⟩, ?_⟩
        · simp [time_series.get_timeseries_size, hl]
        · intro v hv
          rw [list_variables_eq] at hv
          exact hcols v hv

/-- C16: if `open` succeeds, every registered column has the length of the time index
(and the store is `rect` when no name is registered twice); and if the whole file was read
and some column of the store then differs in length from the time index, `open` throws
(`forcing_lookup_error`, with the store already marked open). -/
theorem open_column_lengths (s : time_series) (path contents : String) :
    (∀ s2, s.open path (some contents) = .returns s2 →
        (∀ v, v ∈ s2.list_variables →
          ∃ col, hm_find s2._variables v = some col ∧ col.length = s2._date_vec.length)
        ∧ (hm_wf s2._variables → s2.rect))
      ∧ (∀ header rest s1 lines s3 v col,
          open_header (getlines contents) = some (header, rest) →
          open_insert_header header { s with _cols := header.length } = .returns s1 →
          open_rows rest 0 header s1 = .returns (lines, s3) →
          hm_find s3._variables v = some col → col.length ≠ s3._date_vec.length →
          s.open path (some contents) = .throws exception.forcing_lookup_error
            { s3 with _isOpen := true, _file := path, _timeseries_size := lines }) := by
  constructor
  · intro s2 h
    have hcols := (open_returns s path contents s2 h).2.2.2
    refine ⟨hcols, ?_⟩
    intro hwf e he
    have hk : e.1 ∈ s2.list_variables := by
      rw [list_variables_eq]
      simp only [hm_keys, List.mem_map]
      exact ⟨e, he, rfl⟩
    obtain ⟨col, hcol, hlen⟩ := hcols e.1 hk
    rw [hm_find_of_mem_wf _ _ _ hwf he] at hcol
    rw [Option.some.inj hcol]
    exact hlen
  · intro header rest s1 lines s3 v col hh hi hr hf hne
    simp only [time_series.open, hh, hi, hr]
    rcases open_validate_cases (hm_keys s3._variables)
        { s3 with _isOpen := true, _file := path, _timeseries_size := lines } with h | h
    · exfalso
      obtain ⟨_, hall⟩ := open_validate_returns _ _ _ h
      obtain ⟨col2, hc2, hl2⟩ := hall v (hm_find_some_mem_keys _ _ _ hf)
      have hc3 : hm_find s3._variables v = some col2 := hc2
      rw [hf] at hc3
      apply hne
      rw [Option.some.inj hc3]
      exact hl2
    · exact h

/-- Witness of `open_column_lengths`: the file of the example, on which `open` succeeds. -/
theorem open_column_lengths_witness :
    (∀ v, v ∈ example_store.list_variables →
        ∃ col, hm_find example_store._variables v = some col
          ∧ col.length = example_store._date_vec.length)
      ∧ (hm_wf example_store._variables → example_store.rect) :=
  (open_column_lengths time_series.new "met.txt" example_file).1 example_store (by decide)

theorem loaded_reg (header : List String) (hd : String) (done : List (List String))
    (s : time_series) (hinv : loaded header hd done s) :
    ∀ h, h ∈ header → h ≠ hd → h ∈ hm_keys s._variables := by
  intro h hm hne
  rcases hinv.2.2.1 with hk | ⟨_, hk⟩
  · rw [hk]; exact (List.mem_erase_of_ne hne).2 hm
  · rw [hk]; exact hm

/-- C17, as stated, fails in two ways.  A row with more tokens than the header
(`long_row_file`) does not make `open` throw the column-count error: the token loop reads
`*headerItr` at `header.end()` before the count is compared, which is undefined.  A row with
fewer tokens than the header (`short_bad_row_file`) whose first token is neither a number
nor a datetime makes `open` throw `forcing_no_regexmatch`, the error of the token, before
the count is compared. -/
theorem open_count_mismatch_other_outcomes :
    (tokenize "1.0,20190101T000000,3.0").length = 3 ∧ (tokenize "t,datetime").length = 2
      ∧ time_series.new.open "met.txt" (some long_row_file) = .undefined
      ∧ (tokenize "xyz,2.0").length = 2 ∧ (tokenize "t,rh,datetime").length = 3
      ∧ (∃ st, time_series.new.open "met.txt" (some short_bad_row_file)
            = .throws exception.forcing_no_regexmatch st)
      ∧ ¬ ∃ st, time_series.new.open "met.txt" (some short_bad_row_file)
            = .throws exception.forcing_badcast st := by
  refine ⟨by decide, by decide, by decide, by decide, by decide, ?_, ?_⟩
  · exact ⟨{ time_series.new with
        _variables := [("t", []), ("rh", []), ("datetime", [])], _cols := 3 }, by decide⟩
  · rintro ⟨st, h⟩
    have h2 : time_series.new.open "met.txt" (some short_bad_row_file)
        = .throws exception.forcing_no_regexmatch
            { time_series.new with
              _variables := [("t", []), ("rh", []), ("datetime", [])], _cols := 3 } := by
      decide
    rw [h2] at h
    cases h

/-- C17, amended: for a file whose lines are blank lines, a header line of distinct names,
lines that are blank or well-formed rows, and then a line with at least one token and fewer
tokens than the header, each well formed for the header name it stands under, `open` on an
empty store throws `forcing_badcast`, the error of the column count, and the store is not
marked open. -/
theorem open_short_row (path contents : String) (blanks : List String) (hline : String)
    (good : List String) (badline : String) (more : List String) (hd : String)
    (hfile : getlines contents = blanks ++ hline :: (good ++ badline :: more))
    (hblanks : ∀ b, b ∈ blanks → tokenize b = [])
    (hnd : (tokenize hline).Nodup)
    (hgood : ∀ line, line ∈ good →
      tokenize line = [] ∨ row_ok hd (tokenize hline) (tokenize line) = true)
    (hbad : tokenize badline ≠ [])
    (hok : tokens_ok hd (tokenize hline) (tokenize badline) = true)
    (hshort : (tokenize badline).length < (tokenize hline).length) :
    ∃ st, time_series.new.open path (some contents) = .throws exception.forcing_badcast st
      ∧ st.is_open = false ∧ st.get_opened_file = "" := by
  have hne : tokenize hline ≠ [] := by
    intro h; rw [h] at hshort; simp at hshort
  obtain ⟨s1, hinv, hr, ho, hf, hts, hopen⟩ :=
    open_up_to path contents blanks hline good (badline :: more) hd hfile hblanks hne hnd hgood
  obtain ⟨s2, hrun, _, hc2, _, ho2, hf2, _⟩ :=
    open_row_tokens_ok hd (tokenize badline) (tokenize hline) 0 s1 hok
      (loaded_reg _ _ _ _ hinv) hinv.2.1
  have hrun2 := hrun []
  simp only [List.append_nil, open_row_tokens] at hrun2
  have hb : (tokenize badline).length ≠ 0 := fun h => hbad (List.length_eq_zero.1 h)
  have hcne : (0 : Int) + ((tokenize badline).length : Int) ≠ s2._cols := by
    rw [hc2, hinv.1]
    intro h
    have h3 : ((tokenize badline).length : Int) = ((tokenize hline).length : Int) := by
      simpa using h
    have h4 : (tokenize badline).length = (tokenize hline).length := by exact_mod_cast h3
    omega
  refine ⟨s2, ?_, ?_, ?_⟩
  · rw [hopen]
    simp only [open_rows]
    rw [if_pos hb]
    simp only [hrun2]
    rw [if_pos hcne]
  · show s2._isOpen = false
    rw [ho2, ho]
  · show s2._file = ""
    rw [hf2, hf]

/-- Witness of `open_short_row`: the row `1.0,2.0` under the header `t,rh,datetime`. -/
theorem open_short_row_witness :
    ∃ st, time_series.new.open "met.txt" (some short_row_file)
        = .throws exception.forcing_badcast st
      ∧ st.is_open = false ∧ st.get_opened_file = "" :=
  open_short_row "met.txt" short_row_file [] "t,rh,datetime" [] "1.0,2.0" [] "datetime"
    (by decide) (by decide) (by decide) (by decide) (by decide) (by decide) (by decide)

/-- C20 (the code does not do what the claim says): `blank_line_file` has one data row
followed by a blank line; `open` succeeds, marks the store open and stores the path, the
time index has one entry and `_rows` is `1`, but `get_timeseries_size()` is `2`: `lines`
is incremented for the blank line too. -/
theorem open_size_counts_blank_lines :
    getlines blank_line_file = ["t,datetime", "1.0,20190101T000000", ""]
      ∧ time_series.new.open "met.txt" (some blank_line_file) = .returns blank_line_store
      ∧ blank_line_store.is_open = true ∧ blank_line_store.get_opened_file = "met.txt"
      ∧ blank_line_store._date_vec.length = 1 ∧ blank_line_store._rows = 1
      ∧ blank_line_store.get_timeseries_size = 2 := by
  decide

/-! ## Claim C18: the tokens that are numbers -/

theorem split_sign_snd (sign rest : List Char) (hs : is_sign_text sign)
    (hrest : ∀ c r, rest = c :: r → c ≠ ('-' : Char) ∧ c ≠ ('+' : Char)) :
    (split_sign (sign ++ rest)).2 = rest := by
  rcases hs with h | h | h
  · subst h
    cases rest with
    | nil => rfl
    | cons c r =>
      obtain ⟨h1, h2⟩ := hrest c r rfl
      simp [split_sign, h1, h2]
  · subst h; simp [split_sign]
  · subst h
    have : ¬ (('+' : Char) = ('-' : Char)) := by decide
    simp [split_sign, this]

theorem digit_not_sign (c : Char) (h : Char.isDigit c = true) :
    c ≠ ('-' : Char) ∧ c ≠ ('+' : Char) := by
  constructor
  · intro h2; rw [h2] at h; revert h; decide
  · intro h2; rw [h2] at h; revert h; decide

theorem span_digits (a b : List Char) (ha : is_digits a)
    (hb : ∀ c r, b = c :: r → Char.isDigit c = false) :
    (a ++ b).takeWhile Char.isDigit = a ∧ (a ++ b).dropWhile Char.isDigit = b := by
  induction a with
  | nil =>
    cases b with
    | nil => simp
    | cons c r => simp [List.takeWhile_cons, List.dropWhile_cons, hb c r rfl]
  | cons x xs ih =>
    have hx : Char.isDigit x = true := ha x (List.mem_cons_self _ _)
    obtain ⟨h1, h2⟩ := ih (fun c hc => ha c (List.mem_cons_of_mem _ hc))
    simp [List.takeWhile_cons, List.dropWhile_cons, hx, h1, h2]

theorem floating_exponent_some (expo : List Char) (h : is_exponent_text expo) :
    (∃ e, floating_exponent expo = some e) ∧ ∀ c r, expo = c :: r → Char.isDigit c = false := by
  rcases h with h | ⟨e, esign, expd, h, he, hsign, hne, hdig⟩
  · subst h
    exact ⟨⟨_, rfl⟩, by simp⟩
  · subst h
    have hhead : ∀ c r, expd = c :: r → c ≠ ('-' : Char) ∧ c ≠ ('+' : Char) := by
      intro c r hc
      exact digit_not_sign c (hdig c (by rw [hc]; exact List.mem_cons_self _ _))
    have hsnd := split_sign_snd esign expd hsign hhead
    have hall : expd.all Char.isDigit = true := List.all_eq_true.2 hdig
    constructor
    · have hee : (e = ('e' : Char) || e = ('E' : Char)) = true := by
        rcases he with h1 | h1 <;> simp [h1]
      refine ⟨split_sign (esign ++ expd), ?_⟩
      simp only [floating_exponent]
      rw [if_pos hee, hsnd, if_pos ⟨hne, hall⟩]
    · intro c r hc
      have hce : c = e := by
        have := List.cons.inj hc
        exact this.1.symm
      rw [hce]
      rcases he with h1 | h1 <;> rw [h1] <;> decide

theorem point_number_matches (tok : String) (h : is_point_number tok) :
    is_number_token tok = true := by
  obtain ⟨sign, intd, fracd, expo, hdata, hsign, hint, hfrac, hsome, hexp⟩ := h
  obtain ⟨⟨e, he⟩, hexphead⟩ := floating_exponent_some expo hexp
  have hhead : ∀ c r, intd ++ ('.' : Char) :: (fracd ++ expo) = c :: r →
      c ≠ ('-' : Char) ∧ c ≠ ('+' : Char) := by
    intro c r hc
    cases intd with
    | nil =>
      have : c = ('.' : Char) := by
        have := List.cons.inj hc
        exact this.1.symm
      rw [this]
      constructor <;> decide
    | cons x xs =>
      have : c = x := by
        have := List.cons.inj hc
        exact this.1.symm
      rw [this]
      exact digit_not_sign x (hint x (List.mem_cons_self _ _))
  have hsnd := split_sign_snd sign _ hsign hhead
  have hpoint : ∀ c r, ('.' : Char) :: (fracd ++ expo) = c :: r → Char.isDigit c = false := by
    intro c r hc
    have : c = ('.' : Char) := by
      have := List.cons.inj hc
      exact this.1.symm
    rw [this]
    decide
  obtain ⟨ht1, hd1⟩ := span_digits intd _ hint hpoint
  obtain ⟨ht2, hd2⟩ := span_digits fracd expo hfrac hexphead
  have hcond : intd ≠ [] ∨ fracd ≠ [] := hsome
  unfold is_number_token floating_match
  rw [hdata]
  simp only [hsnd, hd1, ht1, ht2, hd2, he, if_true]
  rw [if_pos hcond]
  rfl

theorem row_cursor_walk (s : time_series) (j : Int) (k : Nat) (hwf : hm_wf s._variables) :
    (row_cursor s j).walk (List.replicate k true) = row_cursor s (j + k) := by
  induction k generalizing j with
  | zero => simp [iterator.walk]
  | succ n ih =>
    have h := ih (j + 1)
    simp only [iterator.walk, List.replicate_succ, List.foldl_cons, if_true] at h ⊢
    rw [row_cursor_increment s j hwf, h]
    congr 1
    push_cast
    ring

/-- C26: in a store whose columns all have the length `N` of the time index, for a row
`k < N` and a registered variable `v` with column `col`, the iterator reached from
`begin()` by `k` increments (`face::next` after `face::reset_to_begining`) is at distance
`k` from `begin()`, its `get v` is `col[k]` and its timestamp is the entry `k` of the time
index; and the iterator reached by `N` increments is equal to `end()` (a variable is
registered, `v`). -/
theorem begin_increments (s : time_series) (k : Nat) (v : String) (col : variable_vec)
    (hwf : hm_wf s._variables) (hrect : s.rect) (hk : k < s._date_vec.length)
    (hv : hm_find s._variables v = some col) :
    ∃ b e x t, s.begin = .ok b ∧ face_reset_to_begining s = .ok b
      ∧ time_series.end s = .ok e
      ∧ b.distance_to (b.walk (List.replicate k true)) = k
      ∧ col[k]? = some x
      ∧ (b.walk (List.replicate k true)).dereference.get s v = .ok (some x)
      ∧ s._date_vec[k]? = some t
      ∧ (b.walk (List.replicate k true)).dereference.get_posix s = some t
      ∧ (b.walk (List.replicate s._date_vec.length true)).equal e = true
      ∧ b.walk [true] = face_next b := by
  have hlen : col.length = s._date_vec.length := hrect _ (hm_find_mem _ _ _ hv)
  have hkc : k < col.length := by omega
  have hne : s._variables ≠ [] := by
    intro h; rw [h] at hv; simp [hm_find] at hv
  refine ⟨row_cursor s 0, row_cursor s s._date_vec.length, col[k], s._date_vec[k],
    begin_eq s hwf, begin_eq s hwf, end_eq s hwf hrect, ?_, List.getElem?_eq_getElem hkc,
    ?_, List.getElem?_eq_getElem hk, ?_, ?_, rfl⟩
  · rw [row_cursor_walk s 0 k hwf]
    simp [iterator.distance_to, row_cursor]
  · rw [row_cursor_walk s 0 k hwf, get_row_cursor, hv]
    simp [List.getElem?_eq_getElem hkc]
  · rw [row_cursor_walk s 0 k hwf]
    have h0 : ((0 : Int) + (k : Int)) = ((k : Nat) : Int) := by simp
    rw [h0, get_posix_row_cursor, List.getElem?_eq_getElem hk]
  · rw [row_cursor_walk s 0 _ hwf, equal_row_cursor s _ _ hne]
    simp

/-- Witness of `begin_increments`: row `1` and the variable `t` of `two_row_store`. -/
theorem begin_increments_witness :
    ∃ b e x t, two_row_store.begin = .ok b ∧ face_reset_to_begining two_row_store = .ok b
      ∧ time_series.end two_row_store = .ok e
      ∧ b.distance_to (b.walk (List.replicate 1 true)) = (1 : Nat)
      ∧ ([10, 20] : variable_vec)[1]? = some x
      ∧ (b.walk (List.replicate 1 true)).dereference.get two_row_store "t" = .ok (some x)
      ∧ two_row_store._date_vec[1]? = some t
      ∧ (b.walk (List.replicate 1 true)).dereference.get_posix two_row_store = some t
      ∧ (b.walk (List.replicate two_row_store._date_vec.length true)).equal e = true
      ∧ b.walk [true] = face_next b :=
  begin_increments two_row_store 1 "t" [10, 20] (by decide) (by decide) (by decide)
    (by decide)

/-! ## Claims C27 and C28: `open` on files it cannot load -/

/-- C27 (the code does not do what the claim says): on an empty file and on a file of
blank lines the header search loop of `open` never ends: the lines run out, `getline`
fails and leaves `line` empty, no token is found and `done` stays `false`. -/
theorem open_diverges_without_header :
    getlines "" = [] ∧ time_series.new.open "met.txt" (some "") = .diverges
      ∧ getlines "\n \n" = ["", " "]
      ∧ time_series.new.open "met.txt" (some "\n \n") = .diverges := by
  decide

/-- C28 (the code does not do what the claim says): `no_date_file` has a column of numbers
and no datetime column, so after the file is read the column `t` has one value and the time
index none; `open` throws in the column-length check, and the store it leaves is marked
open and holds the path. -/
theorem open_failure_leaves_store_open :
    time_series.new.is_open = false ∧ time_series.new.get_opened_file = ""
      ∧ time_series.new.open "met.txt" (some no_date_file)
          = .throws exception.forcing_lookup_error no_date_store
      ∧ no_date_store.is_open = true ∧ no_date_store.get_opened_file = "met.txt" := by
  decide

/-! ## How `open` can end -/

theorem open_header_none_iff (ls : List String) :
    open_header ls = none ↔ ∀ line, line ∈ ls → tokenize line = [] := by
  induction ls with
  | nil => simp [open_header]
  | cons line rest ih =>
    simp only [open_header]
    by_cases h : (tokenize line).length ≠ 0
    · rw [if_pos h]
      constructor
      · intro h2; cases h2
      · intro h2
        exact absurd (by rw [h2 line (List.mem_cons_self _ _)]; rfl) h
    · rw [if_neg h, ih]
      have h0 : tokenize line = [] := List.length_eq_zero.1 (Decidable.not_not.1 h)
      constructor
      · intro h2 l hl
        rcases List.mem_cons.1 hl with heq | hmem
        · rw [heq]; exact h0
        · exact h2 l hmem
      · intro h2 l hl
        exact h2 l (List.mem_cons_of_mem _ hl)

theorem open_insert_header_ends (hs : List String) (s : time_series) :
    (∃ s2, open_insert_header hs s = .returns s2
        ∧ s2._isOpen = s._isOpen ∧ s2._file = s._file)
      ∨ (∃ e s2, open_insert_header hs s = .throws e s2
        ∧ s2._isOpen = s._isOpen ∧ s2._file = s._file) := by
  induction hs generalizing s with
  | nil => exact Or.inl ⟨s, rfl, rfl, rfl⟩
  | cons h rest ih =>
    simp only [open_insert_header, hm_insert]
    cases hf : hm_find s._variables h with
    | some v => exact Or.inr ⟨_, s, rfl, rfl, rfl⟩
    | none =>
      simp only
      rcases ih { s with _variables := s._variables ++ [(h, [])] } with
        ⟨s2, h1, h2, h3⟩ | ⟨e, s2, h1, h2, h3⟩
      · exact Or.inl ⟨s2, h1, h2, h3⟩
      · exact Or.inr ⟨e, s2, h1, h2, h3⟩

theorem keeps_flags_of_eq {α : Type} (proj : α → time_series) (s s1 : time_series)
    (o : outcome α) (h1 : s1._isOpen = s._isOpen) (h2 : s1._file = s._file)
    (h : keeps_flags proj s1 o) : keeps_flags proj s o := by
  cases o with
  | returns a => exact ⟨h.1.trans h1, h.2.trans h2⟩
  | throws e s2 => exact ⟨h.1.trans h1, h.2.trans h2⟩
  | undefined => trivial
  | diverges => exact h

theorem open_row_tokens_ends (toks hdr : List String) (c : Int) (s : time_series) :
    keeps_flags Prod.snd s (open_row_tokens toks hdr c s) := by
  induction toks generalizing hdr c s with
  | nil => exact ⟨rfl, rfl⟩
  | cons tok rest ih =>
    simp only [open_row_tokens]
    split
    · split
      · trivial
      · split
        · exact ⟨rfl, rfl⟩
        · split
          · exact ⟨rfl, rfl⟩
          · exact keeps_flags_of_eq _ s _ _ rfl rfl (ih _ _ _)
    · split
      · split
        · trivial
        · split
          · exact ⟨rfl, rfl⟩
          · exact keeps_flags_of_eq _ s _ _ rfl rfl (ih _ _ _)
      · exact ⟨rfl, rfl⟩

theorem open_rows_ends (ls : List String) (n : Int) (header : List String)
    (s : time_series) : keeps_flags Prod.snd s (open_rows ls n header s) := by
  induction ls generalizing n s with
  | nil => exact ⟨rfl, rfl⟩
  | cons line rest ih =>
    simp only [open_rows]
    split
    · have h := open_row_tokens_ends (tokenize line) header 0 s
      split
      · rename_i c2 s2 heq
        rw [heq] at h
        split
        · exact h
        · exact keeps_flags_of_eq _ s _ _ h.1 h.2 (ih _ _)
      · rename_i e s2 heq
        rw [heq] at h
        exact h
      · trivial
      · rename_i heq
        rw [heq] at h
        exact h
    · exact ih _ _

/-- The method `open` loops for ever exactly on the files without a token. -/
theorem open_diverges_iff (s : time_series) (path contents : String) :
    s.open path (some contents) = .diverges
      ↔ ∀ line, line ∈ getlines contents → tokenize line = [] := by
  rw [← open_header_none_iff]
  simp only [time_series.open]
  cases hh : open_header (getlines contents) with
  | none => simp
  | some p =>
    obtain ⟨header, rest⟩ := p
    simp only
    rcases open_insert_header_ends header { s with _cols := header.length } with
      ⟨s1, h1, _, _⟩ | ⟨e, s1, h1, _, _⟩
    · rw [h1]
      simp only
      have hr := open_rows_ends rest 0 header s1
      cases hrows : open_rows rest 0 header s1 with
      | returns q =>
        obtain ⟨lines, s2⟩ := q
        simp only
        rcases open_validate_cases (hm_keys s2._variables)
            { s2 with _isOpen := true, _file := path, _timeseries_size := lines } with h | h
        · rw [h]; simp
        · rw [h]; simp
      | throws e s2 => simp
      | undefined => simp
      | diverges => rw [hrows] at hr; exact absurd hr (by simp [keeps_flags])
    · rw [h1]; simp

/-- When `open` on a store that is not open throws, the store it leaves is not marked open
and holds no path, unless the exception comes from the column-length check at the end:
then the store is marked open and holds the path. -/
theorem open_throws_flags (path contents : String) (e : exception) (st : time_series)
    (h : time_series.new.open path (some contents) = .throws e st) :
    (st.is_open = false ∧ st.get_opened_file = "")
      ∨ (e = exception.forcing_lookup_error ∧ st.is_open = true
          ∧ st.get_opened_file = path
          ∧ ∃ v col, hm_find st._variables v = some col
              ∧ col.length ≠ st._date_vec.length) := by
  simp only [time_series.open] at h
  cases hh : open_header (getlines contents) with
  | none => rw [hh] at h; cases h
  | some p =>
    obtain ⟨header, rest⟩ := p
    rw [hh] at h
    simp only at h
    rcases open_insert_header_ends header { time_series.new with _cols := header.length } with
      ⟨s1, h1, ho1, hf1⟩ | ⟨e1, s1, h1, ho1, hf1⟩
    · rw [h1] at h
      simp only at h
      have hr := open_rows_ends rest 0 header s1
      cases hrows : open_rows rest 0 header s1 with
      | returns q =>
        obtain ⟨lines, s2⟩ := q
        rw [hrows] at h
        simp only at h
        right
        rcases open_validate_cases (hm_keys s2._variables)
            { s2 with _isOpen := true, _file := path, _timeseries_size := lines } with hv | hv
        · rw [hv] at h; cases h
        · rw [hv] at h
          cases h
          refine ⟨rfl, rfl, rfl, ?_⟩
          by_contra hnone
          have hall : ∀ v, v ∈ hm_keys s2._variables →
              ∃ col, hm_find s2._variables v = some col
                ∧ col.length = s2._date_vec.length := by
            intro v hv2
            obtain ⟨col, hcol⟩ := hm_mem_keys_find _ _ hv2
            refine ⟨col, hcol, ?_⟩
            by_contra hne
            exact hnone ⟨v, col, hcol, hne⟩
          have hok := open_validate_ok (hm_keys s2._variables)
            { s2 with _isOpen := true, _file := path, _timeseries_size := lines } hall
          rw [hok] at hv
          cases hv
      | throws e2 s2 =>
        rw [hrows] at h hr
        simp only at h
        cases h
        left
        exact ⟨hr.1.trans ho1, hr.2.trans hf1⟩
      | undefined => rw [hrows] at h; cases h
      | diverges => rw [hrows] at h; cases h
    · rw [h1] at h
      simp only at h
      cases h
      left
      exact ⟨ho1, hf1⟩

/-! ## Claims C21 to C24: `to_file` -/

theorem to_file_header_fold (vars : ts_hashmap) (acc : List out_item) :
    vars.foldl (fun out itr => out ++ [out_item.text "\t", out_item.text itr.1]) acc
      = acc ++ (vars.map (fun e => [out_item.text "\t", out_item.text e.1])).flatten := by
  induction vars generalizing acc with
  | nil => simp
  | cons e rest ih => simp [ih]

theorem to_file_header_eq (s : time_series) :
    to_file_header s._variables
      = out_item.text "Date\t"
          :: (s.list_variables.map
                (fun n => [out_item.text "\t", out_item.text n])).flatten := by
  rw [list_variables_eq]
  simp [to_file_header, to_file_header_fold, hm_keys, List.map_map, Function.comp_def]

theorem line_text_names (names : List String) :
    line_text (names.map (fun n => [out_item.text "\t", out_item.text n])).flatten
      = names_text names := by
  induction names with
  | nil => rfl
  | cons n rest ih => simp [line_text, names_text, ih]

theorem to_file_rows_extends (s : time_series) (i : Nat) (tItr : List variable_vec)
    (n k : Nat) (out : List out_item) :
    (∃ rest, to_file_rows s i tItr n k out = .returns (out ++ rest))
      ∨ (∃ rest, to_file_rows s i tItr n k out = .throws exception.out_of_range (out ++ rest))
      ∨ to_file_rows s i tItr n k out = .undefined := by
  induction n generalizing k out with
  | zero => exact Or.inl ⟨[], by simp [to_file_rows]⟩
  | succ m ih =>
    simp only [to_file_rows]
    cases hd : s._date_vec[i]? with
    | none => exact Or.inr (Or.inl ⟨[], by simp⟩)
    | some t =>
      simp only
      cases hv : to_file_values tItr k s._cols.toNat 0 with
      | none => exact Or.inr (Or.inr rfl)
      | some vals =>
        simp only
        rcases ih (k + 1)
            (out ++ [out_item.date t, out_item.text "\t"] ++ vals ++ [out_item.endl]) with
          ⟨rest, h⟩ | ⟨rest, h⟩ | h
        · exact Or.inl
            ⟨[out_item.date t, out_item.text "\t"] ++ vals ++ [out_item.endl] ++ rest,
              by rw [h]; simp⟩
        · exact Or.inr (Or.inl
            ⟨[out_item.date t, out_item.text "\t"] ++ vals ++ [out_item.endl] ++ rest,
              by rw [h]; simp⟩)
        · exact Or.inr (Or.inr h)

/-- Every timestamp `to_file` writes is the entry of the time index at the number of
variables, the value the counter `i` has after the header loop, whatever the row. -/
theorem to_file_rows_dates (s : time_series) (i : Nat) (tItr : List variable_vec)
    (n k : Nat) (out res : List out_item)
    (hout : ∀ t, out_item.date t ∈ out → s._date_vec[i]? = some t)
    (h : to_file_rows s i tItr n k out = .returns res) :
    ∀ t, out_item.date t ∈ res → s._date_vec[i]? = some t := by
  have hvals : ∀ (m j kk : Nat) (vals : List out_item),
      to_file_values tItr kk m j = some vals → ∀ t, out_item.date t ∉ vals := by
    intro m
    induction m with
    | zero =>
      intro j kk vals hv t
      simp only [to_file_values, Option.some.injEq] at hv
      rw [← hv]; simp
    | succ m2 ihm =>
      intro j kk vals hv t
      simp only [to_file_values] at hv
      split at hv
      · cases hv
      · split at hv
        · cases hv
        · split at hv
          · cases hv
          · rename_i rest hrest
            simp only [Option.some.injEq] at hv
            rw [← hv]
            have := ihm (j + 1) kk rest hrest t
            simp [this]
  induction n generalizing k out with
  | zero =>
    simp only [to_file_rows, write_outcome.returns.injEq] at h
    rw [← h]; exact hout
  | succ m ih =>
    simp only [to_file_rows] at h
    split at h
    · cases h
    · rename_i t0 hd
      split at h
      · cases h
      · rename_i vals hv
        refine ih (k + 1) _ ?_ h
        intro t ht
        rcases List.mem_append.1 ht with h1 | h1
        · rcases List.mem_append.1 h1 with h2 | h2
          · rcases List.mem_append.1 h2 with h3 | h3
            · exact hout t h3
            · have h4 : t = t0 := by simpa using h3
              rw [h4]; exact hd
          · exact absurd h2 (hvals _ _ _ _ hv t)
        · simp at h1

theorem to_file_dates_stale (s : time_series) (res : List out_item)
    (h : s.to_file true = .returns res) :
    ∀ t, out_item.date t ∈ res → s._date_vec[s._variables.length]? = some t := by
  simp only [time_series.to_file, Bool.true_eq_false, if_false] at h
  refine to_file_rows_dates s _ _ _ _ _ res ?_ h
  intro t ht
  exfalso
  rw [to_file_header_eq] at ht
  simp only [List.cons_append, List.mem_cons, List.mem_append, List.mem_flatten, List.mem_map,
    List.mem_singleton] at ht
  rcases ht with h1 | h1 | h1 | h1
  · cases h1
  · obtain ⟨l, ⟨n, _, hn⟩, hl⟩ := h1
    rw [← hn] at hl
    simp at hl
  · cases h1
  · simp at h1

/-- C21 (the code does not do what the claim says): `open` succeeds on the file of the
example, and `to_file` of the store it builds throws `std::out_of_range` at the first row,
after the header line: there are two variables and two rows, and `_date_vec.at(i)` is
called with `i = 2`.  On `header_only_file`, a header without rows, `open` and `to_file`
both succeed, the file written is `Date`, two tabs, `t`, a tab, `rh`, and `open` of that
file registers `Date` as a third variable. -/
theorem round_trip_fails :
    time_series.new.open "met.txt" (some example_file) = .returns example_store
      ∧ example_store.to_file true
          = .throws exception.out_of_range
              [out_item.text "Date\t", out_item.text "\t", out_item.text "t",
                out_item.text "\t", out_item.text "rh", out_item.endl]
      ∧ time_series.new.open "met.txt" (some header_only_file) = .returns header_only_store
      ∧ header_only_store.to_file true
          = .returns [out_item.text "Date\t", out_item.text "\t", out_item.text "t",
              out_item.text "\t", out_item.text "rh", out_item.endl]
      ∧ out_text [out_item.text "Date\t", out_item.text "\t", out_item.text "t",
              out_item.text "\t", out_item.text "rh", out_item.endl]
          = some "Date\t\tt\trh\n"
      ∧ time_series.new.open "out.txt" (some "Date\t\tt\trh\n") = .returns header_only_reread
      ∧ header_only_store.list_variables = ["t", "rh"]
      ∧ header_only_reread.list_variables = ["Date", "t", "rh"] := by
  decide

/-- C22 (the code does not do what the claim says): `three_row_rh_store` is reached by
`open` of `three_row_file` and three `push_back` on the new name `rh`; it has three rows
and two variables.  `to_file` returns, and every data line it wrote begins with the entry
`2` of the time index, the entry at the value the counter `i` has after the header loop:
the first data line begins with `1546308000`, not with the entry `0`, `1546300800`. -/
theorem to_file_stale_timestamp :
    time_series.new.open "met.txt" (some three_row_file) = .returns three_row_store
      ∧ ((three_row_store.push_back 50 "rh").push_back 55 "rh").push_back 60 "rh"
          = three_row_rh_store
      ∧ three_row_rh_store.to_file true = .returns three_row_rh_output
      ∧ (out_lines three_row_rh_output)[1]?
          = some [out_item.date 1546308000, out_item.text "\t", out_item.text "\t",
              out_item.value 1, out_item.text "\t", out_item.value 50]
      ∧ (out_lines three_row_rh_output)[2]?
          = some [out_item.date 1546308000, out_item.text "\t", out_item.text "\t",
              out_item.value 2, out_item.text "\t", out_item.value 55]
      ∧ three_row_rh_store._date_vec[0]? = some 1546300800
      ∧ three_row_rh_store._date_vec[1]? = some 1546304400
      ∧ three_row_rh_store._date_vec[2]? = some 1546308000 := by
  decide

/-- C23 (the code does not do what the claim says): for `init_store`, the store `init`
leaves for one name and two timestamps, `to_file` (called as `face::to_file` does) writes
the header line and no data line, because `init` leaves `_rows` at `0`; for
`example_store`, the store `open` builds from the file of the example, it throws
`std::out_of_range` before the first data line; for `three_row_store`, built by `open`
with one variable and three rows, the loop over `j` runs to `_cols = 2` and reads
`tItr[1]`, outside the array of one iterator. -/
theorem to_file_data_lines :
    time_series.new.init ["t"] [1, 2] 2 = .ok init_store
      ∧ init_store._date_vec.length = 2
      ∧ face_to_file init_store true
          = .returns [out_item.text "Date\t", out_item.text "\t", out_item.text "t",
              out_item.endl]
      ∧ (out_lines [out_item.text "Date\t", out_item.text "\t", out_item.text "t",
              out_item.endl]).length = 1
      ∧ time_series.new.open "met.txt" (some example_file) = .returns example_store
      ∧ example_store.to_file true
          = .throws exception.out_of_range
              [out_item.text "Date\t", out_item.text "\t", out_item.text "t",
                out_item.text "\t", out_item.text "rh", out_item.endl]
      ∧ time_series.new.open "met.txt" (some three_row_file) = .returns three_row_store
      ∧ three_row_store.to_file true = .undefined := by
  decide

/-- C24, as stated, fails: the header line has an empty field between `Date` and the first
name.  For `init_store`, whose one variable is `t`, `to_file` writes `Date`, a tab, a tab
and `t`, not `Date`, a tab and `t`. -/
theorem to_file_header_empty_field :
    init_store.list_variables = ["t"]
      ∧ init_store.to_file true
          = .returns [out_item.text "Date\t", out_item.text "\t", out_item.text "t",
              out_item.endl]
      ∧ line_text [out_item.text "Date\t", out_item.text "\t", out_item.text "t"]
          = "Date\t\tt"
      ∧ "Date\t\tt" ≠ "Date" ++ ("\t" ++ "t") := by
  decide

/-- C24, amended: for every store, what `to_file` writes (when it returns, or throws after
the stream was opened) begins with the header line: the text `Date` with a tab, then for
every variable, in the order of `list_variables`, a tab and the name, then the line end.
The characters of the header line are `Date`, a tab, and for each variable a tab and its
name: two tabs stand between `Date` and the first name.  With `_rows` at `0` or below,
nothing else is written. -/
theorem to_file_header_line (s : time_series) :
    (∃ rest,
        s.to_file true = .returns (to_file_header s._variables ++ [out_item.endl] ++ rest)
          ∨ s.to_file true
              = .throws exception.out_of_range
                  (to_file_header s._variables ++ [out_item.endl] ++ rest)
          ∨ s.to_file true = .undefined)
      ∧ to_file_header s._variables
          = out_item.text "Date\t"
              :: (s.list_variables.map
                    (fun n => [out_item.text "\t", out_item.text n])).flatten
      ∧ line_text (to_file_header s._variables) = "Date\t" ++ names_text s.list_variables
      ∧ (s._rows ≤ 0 →
          s.to_file true = .returns (to_file_header s._variables ++ [out_item.endl])) := by
  refine ⟨?_, to_file_header_eq s, ?_, ?_⟩
  · simp only [time_series.to_file, Bool.true_eq_false, if_false]
    rcases to_file_rows_extends s s._variables.length (s._variables.map Prod.snd)
        s._rows.toNat 0 (to_file_header s._variables ++ [out_item.endl]) with
      ⟨rest, h⟩ | ⟨rest, h⟩ | h
    · exact ⟨rest, Or.inl h⟩
    · exact ⟨rest, Or.inr (Or.inl h)⟩
    · exact ⟨[], Or.inr (Or.inr h)⟩
  · rw [to_file_header_eq]
    simp only [line_text]
    rw [line_text_names]
  · intro h
    have h0 : s._rows.toNat = 0 := by omega
    simp [time_series.to_file, h0, to_file_rows]

theorem to_file_header_line_witness :
    init_store._rows ≤ 0
      ∧ init_store.to_file true
          = .returns (to_file_header init_store._variables ++ [out_item.endl])
      ∧ line_text (to_file_header init_store._variables)
          = "Date\t" ++ names_text init_store.list_variables :=
  ⟨by decide, (to_file_header_line init_store).2.2.2 (by decide),
    (to_file_header_line init_store).2.2.1⟩

/-! ## `to_file` on a store built by `open` -/

theorem open_inv_length (header : List String) (s : time_series) (h : open_inv header s)
    (hd : s._date_vec ≠ []) : s._variables.length < header.length := by
  obtain ⟨hwf, hsub, hdate⟩ := h
  obtain ⟨h0, hmem, hnot⟩ := hdate hd
  have hsub2 : hm_keys s._variables ⊆ header.erase h0 := by
    intro v hv
    have hne : v ≠ h0 := by
      intro heq
      rw [heq] at hv
      exact hnot hv
    exact (List.mem_erase_of_ne hne).2 (hsub v hv)
  have hle := (List.subperm_of_subset hwf hsub2).length_le
  have hlen : (hm_keys s._variables).length = s._variables.length := by
    simp [hm_keys]
  rw [hlen, List.length_erase_of_mem hmem] at hle
  have hpos : 0 < header.length := List.length_pos_of_mem hmem
  omega

theorem open_row_tokens_inv (header toks hdr : List String) (c : Int) (s : time_series)
    (hsub : ∀ h, h ∈ hdr → h ∈ header) (hinv : open_inv header s) (c2 : Int)
    (s2 : time_series) (h : open_row_tokens toks hdr c s = .returns (c2, s2)) :
    open_inv header s2 ∧ s2._cols = s._cols := by
  induction toks generalizing hdr c s with
  | nil =>
    simp only [open_row_tokens, outcome.returns.injEq, Prod.mk.injEq] at h
    rw [← h.2]
    exact ⟨hinv, rfl⟩
  | cons tok rest ih =>
    obtain ⟨hwf, hkeys, hdate⟩ := hinv
    simp only [open_row_tokens] at h
    split at h
    · split at h
      · cases h
      · rename_i h0 hdr2
        split at h
        · cases h
        · split at h
          · cases h
          · have key := fun hi => ih hdr2 _ _ (fun v hv => hsub v (List.mem_cons_of_mem _ hv)) hi h
            refine key ?_
            refine ⟨hm_wf_modify _ _ _ hwf, ?_, ?_⟩
            · intro v hv
              rw [hm_keys_modify] at hv
              exact hkeys v hv
            · intro hd
              obtain ⟨w, hw1, hw2⟩ := hdate hd
              refine ⟨w, hw1, ?_⟩
              rw [hm_keys_modify]
              exact hw2
    · split at h
      · split at h
        · cases h
        · rename_i h0 hdr2
          split at h
          · cases h
          · have key := fun hi => ih hdr2 _ _ (fun v hv => hsub v (List.mem_cons_of_mem _ hv)) hi h
            refine key ?_
            refine ⟨hm_wf_erase _ _ hwf, ?_, ?_⟩
            · intro v hv
              rw [hm_keys_erase] at hv
              exact hkeys v (List.mem_of_mem_erase hv)
            · intro _
              refine ⟨h0, hsub h0 (List.mem_cons_self _ _), ?_⟩
              rw [hm_keys_erase]
              exact fun hmem => (List.Nodup.mem_erase_iff hwf).1 hmem |>.1 rfl
      · cases h

theorem open_rows_inv (ls : List String) (n : Int) (header : List String) (s : time_series)
    (hinv : open_inv header s) (n2 : Int) (s2 : time_series)
    (h : open_rows ls n header s = .returns (n2, s2)) :
    open_inv header s2 ∧ s2._cols = s._cols := by
  induction ls generalizing n s with
  | nil =>
    simp only [open_rows, outcome.returns.injEq, Prod.mk.injEq] at h
    rw [← h.2]
    exact ⟨hinv, rfl⟩
  | cons line rest ih =>
    simp only [open_rows] at h
    split at h
    · split at h
      · rename_i c3 s3 heq
        have h3 := open_row_tokens_inv header (tokenize line) header 0 s (fun _ hv => hv) hinv
          c3 s3 heq
        split at h
        · cases h
        · have key := fun hi => ih (n + 1) { s3 with _rows := s3._rows + 1 } hi h
          have h4 := key h3.1
          exact ⟨h4.1, h4.2.trans h3.2⟩
      · cases h
      · cases h
      · cases h
    · exact ih _ _ hinv h

theorem open_insert_header_inv (header hs : List String) (s : time_series)
    (hsub : ∀ v, v ∈ hs → v ∈ header) (hwf : hm_wf s._variables)
    (hkeys : ∀ v, v ∈ hm_keys s._variables → v ∈ header) (s2 : time_series)
    (h : open_insert_header hs s = .returns s2) :
    hm_wf s2._variables ∧ (∀ v, v ∈ hm_keys s2._variables → v ∈ header)
      ∧ s2._date_vec = s._date_vec ∧ s2._cols = s._cols := by
  induction hs generalizing s with
  | nil =>
    simp only [open_insert_header, outcome.returns.injEq] at h
    rw [← h]
    exact ⟨hwf, hkeys, rfl, rfl⟩
  | cons v rest ih =>
    simp only [open_insert_header] at h
    split at h
    · cases h
    · rename_i m heq
      have hm : m = (hm_insert s._variables v []).1 := by rw [heq]
      have key := fun h1 h2 => ih { s with _variables := m }
        (fun w hw => hsub w (List.mem_cons_of_mem _ hw)) h1 h2 h
      refine key ?_ ?_
      · rw [hm]
        exact hm_insert_wf _ _ _ hwf
      · intro w hw
        rw [hm] at hw
        rcases (hm_insert_keys _ _ _ _).1 hw with h1 | h1
        · exact hkeys w h1
        · rw [h1]
          exact hsub v (List.mem_cons_self _ _)

theorem to_file_values_none (tItr : List variable_vec) (k n j : Nat) (hn : 0 < n)
    (h : tItr.length < j + n) : to_file_values tItr k n j = none := by
  induction n generalizing j with
  | zero => exact absurd hn (Nat.lt_irrefl 0)
  | succ n ih =>
    simp only [to_file_values]
    split
    · rfl
    · rename_i col hcol
      have hj : j < tItr.length := by
        by_contra hc
        rw [List.getElem?_eq_none (Nat.le_of_not_lt hc)] at hcol
        cases hcol
      split
      · rfl
      · rw [ih (j + 1) (by omega) (by omega)]

/-- On a store that `open` built from a file with at least one data row, `to_file` never
returns: it throws `std::out_of_range` from `_date_vec.at(i)` after the header line, when
the number of variables is not an index of the time index, and otherwise reads `tItr[j]`
outside the array, because `_cols` counts the date column of the file too. -/
theorem to_file_after_open (path contents : String) (s2 : time_series)
    (h : time_series.new.open path (some contents) = .returns s2) (hrows : 0 < s2._rows) :
    (s2._date_vec.length ≤ s2._variables.length
        ∧ s2.to_file true
            = .throws exception.out_of_range
                (to_file_header s2._variables ++ [out_item.endl]))
      ∨ (s2._variables.length < s2._date_vec.length ∧ s2.to_file true = .undefined) := by
  simp only [time_series.open] at h
  cases hh : open_header (getlines contents) with
  | none => rw [hh] at h; cases h
  | some p =>
    obtain ⟨header, rest⟩ := p
    rw [hh] at h
    simp only at h
    cases h1 : open_insert_header header { time_series.new with _cols := header.length } with
    | returns s1 =>
      rw [h1] at h
      simp only at h
      have hi := open_insert_header_inv header header
        { time_series.new with _cols := header.length } (fun _ hv => hv)
        (by simp [time_series.new, hm_wf, hm_keys]) (by simp [time_series.new, hm_keys]) s1 h1
      have hinv1 : open_inv header s1 := by
        refine ⟨hi.1, hi.2.1, ?_⟩
        intro hd
        rw [hi.2.2.1] at hd
        exact absurd rfl hd
      cases hr : open_rows rest 0 header s1 with
      | returns q =>
        obtain ⟨lines, s3⟩ := q
        rw [hr] at h
        simp only at h
        have h3 := open_rows_inv rest 0 header s1 hinv1 lines s3 hr
        have hv := (open_validate_returns _ _ _ h).1
        have hcols : s2._cols = header.length := by
          rw [hv]
          exact h3.2.trans hi.2.2.2
        have hinv2 : open_inv header s2 := by
          rw [hv]
          exact h3.1
        obtain ⟨n, hn⟩ : ∃ n, s2._rows.toNat = n + 1 := ⟨s2._rows.toNat - 1, by omega⟩
        simp only [time_series.to_file, Bool.true_eq_false, if_false, hn, to_file_rows]
        cases hd : s2._date_vec[s2._variables.length]? with
        | none =>
          left
          exact ⟨List.getElem?_eq_none_iff.1 hd, rfl⟩
        | some t =>
          right
          have hlt : s2._variables.length < s2._date_vec.length := by
            by_contra hc
            rw [List.getElem?_eq_none (Nat.le_of_not_lt hc)] at hd
            cases hd
          have hne : s2._date_vec ≠ [] := by
            intro he
            rw [he] at hlt
            exact absurd hlt (Nat.not_lt_zero _)
          have hlen := open_inv_length header s2 hinv2 hne
          have hnone := to_file_values_none (s2._variables.map Prod.snd) 0 s2._cols.toNat 0
            (by rw [hcols]; simp; omega) (by rw [hcols]; simp; omega)
          refine ⟨hlt, ?_⟩
          simp only [hnone]
      | throws e s3 => rw [hr] at h; cases h
      | undefined => rw [hr] at h; cases h
      | diverges => rw [hr] at h; cases h
    | throws e s1 => rw [h1] at h; cases h
    | undefined => rw [h1] at h; cases h
    | diverges => rw [h1] at h; cases h

end CHM
